import Mathlib

/-!
Verification development for the bytecode syntactic-analysis module
(`solutions/components/bytecode_analysis.py`): CFG construction with
index-to-offset resolution, exception-handler edges, basic blocks,
call-graph reachability and dead-code reporting.

Instruction dicts from the jvm2json input are modelled by the `Instr`
structure; `.get(key, default)` accesses on those dicts become `Option`
fields read with `Option.getD`.  Python dictionaries keyed by offset or
method name become association lists with explicit last-write or
first-insert semantics; Python sets become `Finset`s or duplicate-free
lists.  All integer offsets and indices are modelled by `Int` (Python
ints; no overflow involved).
-/

namespace BytecodeAnalysis

/-- A case entry of a switch instruction's `targets` list: a bare
instruction index (tableswitch form) or a `{match, target}` dict
(lookupswitch form, only the `target` field is ever read). -/
inductive SwitchCase where
  | int (idx : Int)
  | dict (target : Option Int)
deriving DecidableEq

/-- The target index carried by a switch case entry (`none` for a
dict entry without a `target` field). -/
def caseTargetIdx : SwitchCase → Option Int
  | .int ci => some ci
  | .dict ti => ti

/-- The `method` operand of an invoke instruction: `refName` models
`inst["method"]["ref"]["name"]` (the referenced class), `name` models
`inst["method"]["name"]`. -/
structure MethodRef where
  refName : Option String
  name : Option String
deriving DecidableEq

/-- A bytecode instruction dict.  `offset` is the byte offset (absent
key modelled as `none`), `opr` the operation-kind string, `target` the
jump-target instruction index of if/ifz/goto, `default` and `targets`
the switch operands, `method` the invoke operand. -/
structure Instr where
  offset : Option Int
  opr : String
  target : Option Int := none
  default : Option Int := none
  targets : List SwitchCase := []
  method : Option MethodRef := none
deriving DecidableEq

/-- `inst.get("offset", -1)`. -/
def instrOffset (instr : Instr) : Int := instr.offset.getD (-1)

/-- The index-to-offset table: for every list position `i` whose
instruction has a nonnegative offset, the pair `(i, offset)`.
Mirrors the table-building loops of `build_cfg` and `_parse_opcodes`. -/
def indexToOffset (bc : List Instr) : List (Int × Int) :=
  (List.range bc.length).filterMap fun i =>
    match bc[i]? with
    | some instr =>
        if 0 ≤ instrOffset instr then some ((Int.ofNat i), instrOffset instr) else none
    | none => none

/-- `index_to_offset.get(target_index)` (`_resolve_target` / `resolve_target`). -/
def resolveTarget (tbl : List (Int × Int)) (idx : Int) : Option Int :=
  (tbl.find? (fun p => p.1 == idx)).map (·.2)

/-- The valid (nonnegative) offsets in instruction-list order:
`CFGBuilder._pc_list` before its final sort. -/
def rawPcList (bc : List Instr) : List Int :=
  (List.range bc.length).filterMap fun i =>
    match bc[i]? with
    | some instr =>
        if 0 ≤ instrOffset instr then some (instrOffset instr) else none
    | none => none

/-- `CFGBuilder._pc_list` after `self._pc_list.sort()`. -/
def pcList (bc : List Instr) : List Int :=
  List.insertionSort (· ≤ ·) (rawPcList bc)

/-- The key set of the offset-keyed node dict (both CFG flavours create
one node per nonnegative-offset instruction). -/
def cfgKeys (bc : List Instr) : Finset Int :=
  (rawPcList bc).toFinset

/-- Insert into a Python set modelled as a duplicate-free list
(append-if-absent keeps a deterministic iteration order). -/
def listInsert {α : Type} [DecidableEq α] (l : List α) (x : α) : List α :=
  if x ∈ l then l else l ++ [x]

/-- `set.update(xs)`: insert every element of `xs` in order. -/
def listInsertAll {α : Type} [DecidableEq α] (l : List α) (xs : List α) : List α :=
  xs.foldl listInsert l

/-- `set(xs)` as a duplicate-free list in first-occurrence order. -/
def listToSet {α : Type} [DecidableEq α] (xs : List α) : List α :=
  listInsertAll [] xs

/-- Duplicate removal keeping first occurrences, as
`list(dict.fromkeys(successors))` does (the dict accumulates the keys
already seen). -/
def dedupFirstAux : List Int → List Int → List Int
  | _, [] => []
  | seen, x :: xs =>
    if x ∈ seen then dedupFirstAux seen xs else x :: dedupFirstAux (x :: seen) xs

/-- `list(dict.fromkeys(l))`. -/
def dedupFirst (l : List Int) : List Int := dedupFirstAux [] l

/-- The `next_offset` local of the edge loops:
`bytecode[i+1].get("offset")` when a next instruction exists. -/
def nextOffset (bc : List Instr) (i : Nat) : Option Int :=
  match bc[i + 1]? with
  | some nxt => nxt.offset
  | none => none

/-- `CFGBuilder._get_branch_targets`: all resolved jump targets of an
instruction, as byte offsets. -/
def branchTargets (tbl : List (Int × Int)) (instr : Instr) : List Int :=
  let opr := instr.opr
  if opr = "if" ∨ opr = "ifz" ∨ opr = "goto" then
    match instr.target with
    | some t =>
        match resolveTarget tbl t with
        | some toff => [toff]
        | none => []
    | none => []
  else if opr = "tableswitch" then
    (match instr.default with
     | some d =>
         match resolveTarget tbl d with
         | some doff => [doff]
         | none => []
     | none => []) ++
    instr.targets.filterMap (fun c =>
      match c with
      | .int ci => resolveTarget tbl ci
      | .dict _ => none)
  else if opr = "lookupswitch" then
    (match instr.default with
     | some d =>
         match resolveTarget tbl d with
         | some doff => [doff]
         | none => []
     | none => []) ++
    instr.targets.filterMap (fun c =>
      match c with
      | .int _ => none
      | .dict ti =>
          match ti with
          | some t => resolveTarget tbl t
          | none => none)
  else []

/-- `CFGBuilder._compute_successors`: the successor byte offsets of the
instruction at list position `index`. -/
def computeSuccessors (bc : List Instr) (tbl : List (Int × Int)) (index : Nat)
    (instr : Instr) : List Int :=
  let opr := instr.opr
  if opr = "return" ∨ opr = "throw" then []
  else
    let next_offset : Option Int := nextOffset bc index
    if opr = "if" ∨ opr = "ifz" then
      (match next_offset with | some n => [n] | none => []) ++
      (match instr.target with
       | some t =>
           match resolveTarget tbl t with
           | some toff => [toff]
           | none => []
       | none => [])
    else if opr = "goto" then
      match instr.target with
      | some t =>
          match resolveTarget tbl t with
          | some toff => [toff]
          | none => []
      | none => []
    else if opr = "tableswitch" ∨ opr = "lookupswitch" then
      dedupFirst (branchTargets tbl instr)
    else
      match next_offset with | some n => [n] | none => []

/-- A try-catch handler range (byte offsets; half-open protected
region `[start_pc, end_pc)`). -/
structure ExceptionHandler where
  start_pc : Int
  end_pc : Int
  handler_pc : Int
  catch_type : Option String := none
deriving DecidableEq

/-- An exception-handler descriptor dict from jvm2json:
`{start, end, handler, catchType}`, the first three being instruction
indices (absent keys modelled as `none`). -/
structure HandlerData where
  startIdx : Option Int
  endIdx : Option Int
  handlerIdx : Option Int
  catchType : Option String := none
deriving DecidableEq

/-- `ExceptionHandler.from_json`: reads the three index fields with
default `0` and, when the table is non-empty (Python's truthiness test
`if index_to_offset:`), resolves each index through the table *falling
back to the raw index* when the lookup misses. -/
def ExceptionHandler.from_json (data : HandlerData) (tbl : List (Int × Int)) :
    ExceptionHandler :=
  let start := data.startIdx.getD 0
  let stop := data.endIdx.getD 0
  let handler := data.handlerIdx.getD 0
  if tbl.isEmpty then
    { start_pc := start, end_pc := stop, handler_pc := handler,
      catch_type := data.catchType }
  else
    { start_pc := (resolveTarget tbl start).getD start
      end_pc := (resolveTarget tbl stop).getD stop
      handler_pc := (resolveTarget tbl handler).getD handler
      catch_type := data.catchType }

/-- Leader contributions of the instruction at position `i`
(`_find_leaders` loop body): branch/switch targets, the fallthrough of a
conditional branch that has at least one resolved target, and the
instruction following a goto/return/throw. -/
def leaderContrib (bc : List Instr) (tbl : List (Int × Int)) (i : Nat)
    (instr : Instr) : List Int :=
  if instrOffset instr < 0 then []
  else
    let opr := instr.opr
    let targets := branchTargets tbl instr
    let nextOffsetList : List Int :=
      match nextOffset bc i with | some n => [n] | none => []
    let fromTargets : List Int :=
      if targets ≠ [] then
        targets ++ (if opr = "if" ∨ opr = "ifz" then nextOffsetList else [])
      else []
    let afterTerminator : List Int :=
      if opr = "goto" ∨ opr = "return" ∨ opr = "throw" then nextOffsetList else []
    fromTargets ++ afterTerminator

/-- The test guarding handler-entry leaders in `_find_leaders`:
`handler_pc in self._opcodes` (an offset-keyed dict) or `handler_pc`
among the values of the index-to-offset table. -/
def handlerLeaderTest (bc : List Instr) (tbl : List (Int × Int))
    (h : ExceptionHandler) : Prop :=
  h.handler_pc ∈ rawPcList bc ∨
    ((List.range bc.length).map (fun i => resolveTarget tbl (Int.ofNat i))).contains
      (some h.handler_pc)

instance (bc : List Instr) (tbl : List (Int × Int)) (h : ExceptionHandler) :
    Decidable (handlerLeaderTest bc tbl h) := by
  unfold handlerLeaderTest; infer_instance

/-- `CFGBuilder._find_leaders`: the basic-block leader offsets (a
Python set, modelled as a duplicate-free list: the first instruction,
then the per-instruction contributions, then the qualifying handler
entries). -/
def leaders (bc : List Instr) (hs : List ExceptionHandler) : List Int :=
  match pcList bc with
  | [] => []
  | first :: _ =>
    let afterInstrs := (List.range bc.length).foldl (fun acc i =>
        match bc[i]? with
        | some instr => listInsertAll acc (leaderContrib bc (indexToOffset bc) i instr)
        | none => acc) [first]
    hs.foldl (fun acc h =>
        if handlerLeaderTest bc (indexToOffset bc) h then listInsert acc h.handler_pc
        else acc) afterInstrs

/-- A node of the detailed CFG built by `CFGBuilder._build_nodes`.
The `node_type` classification is omitted: it depends on the external
jpamb opcode parser and no claim concerns it.  The `predecessors` field
is filled by a separate second pass (`_compute_predecessors`) and is
modelled by the standalone map `predMap` below. -/
structure CFGNode where
  offset : Int
  instruction : Instr
  successors : List Int
  is_leader : Bool
  exception_handlers : List ExceptionHandler
deriving DecidableEq

/-- One iteration of `_build_nodes`: attach the covering handlers and
set `successors = set(computed successors)` followed by one
`successors.add(handler.handler_pc)` per covering handler (the
successor set is a Python set, modelled as a duplicate-free list). -/
def buildNode (bc : List Instr) (tbl : List (Int × Int)) (ldrs : List Int)
    (hs : List ExceptionHandler) (i : Nat) (instr : Instr) : CFGNode :=
  let offset := instrOffset instr
  let handlers := hs.filter (fun h => decide (h.start_pc ≤ offset ∧ offset < h.end_pc))
  { offset := offset
    instruction := instr
    successors := listInsertAll (listToSet (computeSuccessors bc tbl i instr))
      (handlers.map (·.handler_pc))
    is_leader := decide (offset ∈ ldrs)
    exception_handlers := handlers }

/-- The assignments `self._cfg[offset] = node` performed by
`_build_nodes`, in loop order (a later duplicate offset overwrites an
earlier one, as in a Python dict). -/
def buildNodesList (bc : List Instr) (hs : List ExceptionHandler) :
    List (Int × CFGNode) :=
  (List.range bc.length).filterMap fun i =>
    match bc[i]? with
    | some instr =>
        if 0 ≤ instrOffset instr then
          some (instrOffset instr, buildNode bc (indexToOffset bc) (leaders bc hs) hs i instr)
        else none
    | none => none

/-- Lookup in the node dict `self._cfg` (last write wins). -/
def cfgGet (bc : List Instr) (hs : List ExceptionHandler) (o : Int) :
    Option CFGNode :=
  ((buildNodesList bc hs).reverse.find? (fun p => p.1 == o)).map (·.2)

/-- The successor set stored at offset `o` (empty for a non-node). -/
def cfgSucc (bc : List Instr) (hs : List ExceptionHandler) (o : Int) : List Int :=
  match cfgGet bc hs o with
  | some n => n.successors
  | none => []

/-- `self._cfg.items()`: keys in first-insertion order with their final
node values. -/
def cfgItems (bc : List Instr) (hs : List ExceptionHandler) :
    List (Int × CFGNode) :=
  (dedupFirst (rawPcList bc)).filterMap fun o =>
    (cfgGet bc hs o).map (fun n => (o, n))

/-- `CFGBuilder._compute_predecessors` as a fold over the node dict:
for every node and every of its successors present in the dict, record
the inverse edge in the successor's predecessor set. -/
def predMap (bc : List Instr) (hs : List ExceptionHandler) : Int → List Int :=
  (cfgItems bc hs).foldl (fun acc p =>
      p.2.successors.foldl (fun acc2 s =>
          if s ∈ cfgKeys bc then
            fun o => if o = s then listInsert (acc2 o) p.1 else acc2 o
          else acc2) acc)
    (fun _ => [])

/-- A basic block: its id and the offsets of its nodes in ascending
order (`start_pc`/`end_pc` of the source are the first and last entry). -/
structure BasicBlock where
  block_id : Nat
  pcs : List Int
deriving DecidableEq

/-- The per-leader span test of `_build_basic_blocks`:
`pc >= leader_pc and pc < next_leader and pc in self._cfg` (the upper
bound is absent for the last leader, Python's `float(\'inf\')`). -/
def blockSpan (keys : Finset Int) (l : Int) (upper : Option Int) (pc : Int) : Bool :=
  decide (l ≤ pc) &&
    (match upper with | some u => decide (pc < u) | none => true) &&
    decide (pc ∈ keys)

/-- The block-assembly loop of `_build_basic_blocks`: walk the sorted
leaders; each leader spans up to the next leader (unbounded for the
last); collect the pc-sorted nodes in that span; emit a block and
advance the id only when the span is non-empty. -/
def buildBlocksAux (keys : Finset Int) (pcs : List Int) :
    List Int → Nat → List BasicBlock
  | [], _ => []
  | l :: rest, bid =>
    let blockPcs := pcs.filter (blockSpan keys l rest.head?)
    if blockPcs.isEmpty then buildBlocksAux keys pcs rest bid
    else ⟨bid, blockPcs⟩ :: buildBlocksAux keys pcs rest (bid + 1)

/-- `CFGBuilder._build_basic_blocks` (node collection part);
`sorted(self._leaders)` sorts the leader set ascending. -/
def basicBlocks (bc : List Instr) (hs : List ExceptionHandler) : List BasicBlock :=
  buildBlocksAux (cfgKeys bc) (pcList bc) (List.insertionSort (· ≤ ·) (leaders bc hs)) 0

/-- The final `basic_block_id` of the node at offset `o`: the id of the
unique block whose span contains `o` (the spans are disjoint, so the
first match is the one the source's assignment loop wrote). -/
def blockIdOf (bc : List Instr) (hs : List ExceptionHandler) (o : Int) :
    Option Nat :=
  ((basicBlocks bc hs).find? (fun b => b.pcs.contains o)).map (·.block_id)

/-- The block-level successor edges of `_build_basic_blocks`: for every
successor of the block's last node that is in the node dict and has a
block id, append that id unless already present. -/
def blockSuccessors (bc : List Instr) (hs : List ExceptionHandler)
    (b : BasicBlock) : List Nat :=
  match b.pcs.getLast? with
  | none => []
  | some lastPc =>
    match cfgGet bc hs lastPc with
    | none => []
    | some node =>
      listToSet (((node.successors.filter (fun s => decide (s ∈ cfgKeys bc)))).filterMap
        (fun s => blockIdOf bc hs s))

/-- The simple per-method CFG of the `CFG` dataclass: an offset-keyed
node set with successor/predecessor sets per offset.  `entry_offset`
keeps its dataclass default `0` (`build_cfg` never sets it). -/
structure SimpleCFG where
  method_name : String
  keys : Finset Int
  succ : Int → List Int
  pred : Int → List Int
  entry_offset : Int

/-- `CFG.add_edge`: record the edge in both directions (sets modelled
as duplicate-free lists), but only when both endpoints are node keys. -/
def SimpleCFG.add_edge (cfg : SimpleCFG) (a b : Int) : SimpleCFG :=
  if a ∈ cfg.keys ∧ b ∈ cfg.keys then
    { cfg with
      succ := fun o => if o = a then listInsert (cfg.succ o) b else cfg.succ o
      pred := fun o => if o = b then listInsert (cfg.pred o) a else cfg.pred o }
  else cfg

/-- The edge produced by one switch-case entry in the target loop of
`build_cfg`: a bare int index is resolved directly, a dict entry
through its `target` field; an unresolvable or absent index produces
no edge. -/
def switchCaseEdge (tbl : List (Int × Int)) (offset : Int) :
    SwitchCase → Option (Int × Int)
  | .int ci => (resolveTarget tbl ci).map (fun toff => (offset, toff))
  | .dict ti =>
      match ti with
      | some t => (resolveTarget tbl t).map (fun toff => (offset, toff))
      | none => none

/-- The `cfg.add_edge(...)` calls issued for the instruction at
position `i` by the edge loop of `BytecodeAnalyzer.build_cfg`, in
order. -/
def edgeCalls (bc : List Instr) (tbl : List (Int × Int)) (i : Nat)
    (instr : Instr) : List (Int × Int) :=
  let offset := instrOffset instr
  if offset < 0 ∨ offset ∉ cfgKeys bc then []
  else if instr.opr = "if" ∨ instr.opr = "ifz" then
    (match instr.target with
     | some t =>
         match resolveTarget tbl t with
         | some toff => [(offset, toff)]
         | none => []
     | none => []) ++
    (match nextOffset bc i with
     | some noff => [(offset, noff)]
     | none => [])
  else if instr.opr = "goto" then
    match instr.target with
    | some t =>
        match resolveTarget tbl t with
        | some toff => [(offset, toff)]
        | none => []
    | none => []
  else if instr.opr = "return" ∨ instr.opr = "throw" then []
  else if instr.opr = "tableswitch" ∨ instr.opr = "lookupswitch" then
    (match instr.default with
     | some d =>
         match resolveTarget tbl d with
         | some doff => [(offset, doff)]
         | none => []
     | none => []) ++
    instr.targets.filterMap (switchCaseEdge tbl offset)
  else
    match nextOffset bc i with
    | some noff => [(offset, noff)]
    | none => []

/-- All `add_edge` calls of `build_cfg`, in program order. -/
def allEdgeCalls (bc : List Instr) : List (Int × Int) :=
  ((List.range bc.length).map fun i =>
      match bc[i]? with
      | some instr => edgeCalls bc (indexToOffset bc) i instr
      | none => []).flatten

/-- `BytecodeAnalyzer.build_cfg`: create one node per valid offset,
then fold the edge calls over `add_edge`. -/
def buildCfgSimple (name : String) (bc : List Instr) : SimpleCFG :=
  (allEdgeCalls bc).foldl (fun c e => c.add_edge e.1 e.2)
    { method_name := name, keys := cfgKeys bc,
      succ := fun _ => [], pred := fun _ => [], entry_offset := 0 }

/-- The class-level call graph: `calls` is the caller-to-callees dict,
`all_methods` the set of registered methods. -/
structure CallGraph where
  calls : List (String × List String)
  all_methods : List String
deriving DecidableEq

/-- `CallGraph.add_call`: create the caller's entry on first use, then
add the callee to its set. -/
def CallGraph.add_call (g : CallGraph) (caller callee : String) : CallGraph :=
  if g.calls.any (fun p => p.1 == caller) then
    { g with calls := g.calls.map fun p =>
        if p.1 = caller then (p.1, listInsert p.2 callee) else p }
  else
    { g with calls := g.calls ++ [(caller, [callee])] }

/-- `CallGraph.add_method`. -/
def CallGraph.add_method (g : CallGraph) (m : String) : CallGraph :=
  { g with all_methods := listInsert g.all_methods m }

/-- `self.calls[method]` guarded by `if method in self.calls` — a
missing key behaves as the empty callee set. -/
def lookupCallees (calls : List (String × List String)) (m : String) :
    List String :=
  match calls.find? (fun p => p.1 == m) with
  | some p => p.2
  | none => []

/-- The method names occurring anywhere in the calls dict (used only as
a termination measure for the worklist loop). -/
def callCandidates (calls : List (String × List String)) : Finset String :=
  (calls.map Prod.fst).toFinset ∪ ((calls.map Prod.snd).flatten).toFinset

/-- `CallGraph.get_reachable_from`: explicit worklist search.  The
Python loop pops from one end of the worklist and appends the callees
of a newly visited method that are not yet visited; the visited set is
order-independent. -/
def getReachableFrom (calls : List (String × List String))
    (reachable : Finset String) (worklist : List String) : Finset String :=
  match worklist with
  | [] => reachable
  | m :: rest =>
    if m ∈ reachable then getReachableFrom calls reachable rest
    else
      getReachableFrom calls (insert m reachable)
        ((lookupCallees calls m).filter (fun c => decide (c ∉ insert m reachable)) ++ rest)
termination_by ((callCandidates calls \ reachable).card, worklist.length)
decreasing_by
  · exact Prod.Lex.right _ (Nat.lt_succ_self _)
  · rename_i hm
    by_cases hc : m ∈ callCandidates calls
    · apply Prod.Lex.left
      apply Finset.card_lt_card
      constructor
      · intro x hx
        simp only [Finset.mem_sdiff, Finset.mem_insert] at hx ⊢
        exact ⟨hx.1, fun h => hx.2 (Or.inr h)⟩
      · intro hsub
        have : m ∈ callCandidates calls \ (insert m reachable) :=
          hsub (by simp [Finset.mem_sdiff, hc, hm])
        simp at this
    · have hkey : lookupCallees calls m = [] := by
        unfold lookupCallees
        cases hfind : calls.find? (fun p => p.1 == m) with
        | none => rfl
        | some p =>
          exfalso
          have hp := List.find?_some hfind
          have hmem := List.mem_of_find?_eq_some hfind
          apply hc
          simp only [callCandidates, Finset.mem_union, List.mem_toFinset]
          left
          simp only [beq_iff_eq] at hp
          exact hp ▸ List.mem_map_of_mem Prod.fst hmem
      have heq : callCandidates calls \ insert m reachable =
          callCandidates calls \ reachable := by
        ext x
        simp only [Finset.mem_sdiff, Finset.mem_insert, not_or]
        constructor
        · rintro ⟨h1, h3⟩; exact ⟨h1, h3.2⟩
        · rintro ⟨h1, h2⟩
          exact ⟨h1, fun hx => hc (hx ▸ h1), h2⟩
      rw [heq, hkey]
      exact Prod.Lex.right _ (by simp)

/-- `CFG.get_reachable_nodes`: explicit worklist search from
`entry_offset` over the successor sets, skipping offsets that are
already visited or are not node keys.  The iteration order over a
successor set is unspecified in Python; the result is
order-independent, so the sorted order is used. -/
def cfgReachLoop (cfg : SimpleCFG) (reachable : Finset Int)
    (worklist : List Int) : Finset Int :=
  match worklist with
  | [] => reachable
  | o :: rest =>
    if o ∈ reachable ∨ o ∉ cfg.keys then cfgReachLoop cfg reachable rest
    else
      cfgReachLoop cfg (insert o reachable)
        ((cfg.succ o).filter (fun s => decide (s ∉ insert o reachable)) ++ rest)
termination_by ((cfg.keys \ reachable).card, worklist.length)
decreasing_by
  · exact Prod.Lex.right _ (Nat.lt_succ_self _)
  · rename_i h
    push_neg at h
    apply Prod.Lex.left
    apply Finset.card_lt_card
    constructor
    · intro y hy
      simp only [Finset.mem_sdiff, Finset.mem_insert] at hy ⊢
      exact ⟨hy.1, fun hm => hy.2 (Or.inr hm)⟩
    · intro hsub
      have hmem := hsub (Finset.mem_sdiff.mpr ⟨h.2, h.1⟩)
      simp at hmem

/-- `CFG.get_reachable_nodes`. -/
def SimpleCFG.get_reachable_nodes (cfg : SimpleCFG) : Finset Int :=
  cfgReachLoop cfg ∅ [cfg.entry_offset]

/-- `CFG.get_unreachable_nodes`: all node keys minus the reachable
ones. -/
def SimpleCFG.get_unreachable_nodes (cfg : SimpleCFG) : Finset Int :=
  cfg.keys \ cfg.get_reachable_nodes

/-- The `code` dict of a method (only its bytecode list is consumed by
`build_cfg` and `extract_calls`). -/
structure MethodCode where
  bytecode : List Instr
deriving DecidableEq

/-- A method dict of a class: `name` (read with default `"<unknown>"`),
`access` flags, and the optional `code`. -/
structure Method where
  name : Option String
  access : List String := []
  code : Option MethodCode := none
deriving DecidableEq

/-- `method.get("name", "<unknown>")`. -/
def methodName (m : Method) : String := m.name.getD "<unknown>"

/-- `f"{classname}.{method_name}"`. -/
def fullName (classname : String) (m : Method) : String :=
  classname ++ "." ++ methodName m

/-- A class dict: its name and method list. -/
structure ClassData where
  name : String
  methods : List Method
deriving DecidableEq

/-- `BytecodeAnalyzer.extract_calls`: record a name-based call edge for
every invoke instruction carrying a non-empty class and method name. -/
def extractCalls (g : CallGraph) (caller : String) (code : MethodCode) :
    CallGraph :=
  code.bytecode.foldl (fun g instr =>
      if instr.opr = "invoke" then
        let calleeClass := (instr.method.bind MethodRef.refName).getD ""
        let calleeName := (instr.method.bind MethodRef.name).getD ""
        if calleeClass ≠ "" ∧ calleeName ≠ "" then
          g.add_call caller (calleeClass ++ "." ++ calleeName)
        else g
      else g)
    g

/-- The entry-point test of `BytecodeAnalyzer.get_entry_points`: main,
public or protected access, static initializer, or public
constructor. -/
def entryCond (m : Method) : Prop :=
  methodName m = "main" ∨ "public" ∈ m.access ∨ "protected" ∈ m.access ∨
    methodName m = "<clinit>" ∨ (methodName m = "<init>" ∧ "public" ∈ m.access)

instance (m : Method) : Decidable (entryCond m) := by
  unfold entryCond; infer_instance

/-- `BytecodeAnalyzer.get_entry_points`: the set of full names of the
methods passing the entry-point test, as a duplicate-free list. -/
def getEntryPoints (cls : ClassData) : List String :=
  cls.methods.foldl (fun acc m =>
      if entryCond m then listInsert acc (fullName cls.name m) else acc)
    []

/-- Assignment `d[k] = v` on a Python dict modelled as an association
list: overwrite in place when the key exists, append otherwise. -/
def dictInsert {α : Type} (l : List (String × α)) (k : String) (v : α) :
    List (String × α) :=
  if l.any (fun p => p.1 == k) then
    l.map fun p => if p.1 = k then (k, v) else p
  else l ++ [(k, v)]

/-- The results record of `analyze_class`. -/
structure AnalysisResult where
  cfgs : List (String × SimpleCFG)
  call_graph : CallGraph
  entry_points : List String
  unreachable_methods : List String
  dead_instructions : List (String × Finset Int)
  total_instructions : Nat

/-- The per-method loop of `analyze_class`: register each method,
build its CFG and extract its calls when it has code. -/
def analyzeStep (classname : String) (acc : CallGraph × List (String × SimpleCFG))
    (m : Method) : CallGraph × List (String × SimpleCFG) :=
  let full := fullName classname m
  let g := acc.1.add_method full
  match m.code with
  | some code =>
      (extractCalls g full code,
        dictInsert acc.2 full (buildCfgSimple full code.bytecode))
  | none => (g, acc.2)

/-- `BytecodeAnalyzer.analyze_class` on one class from a fresh
analyzer: build CFGs and the call graph, find entry points, compute
method-level reachability, take the unreachable complement, and collect
the non-empty per-method unreachable-node sets of reachable methods. -/
def analyzeClass (cls : ClassData) : AnalysisResult :=
  let built := cls.methods.foldl (analyzeStep cls.name) (⟨[], []⟩, [])
  let graph := built.1
  let cfgs := built.2
  let entry_points := getEntryPoints cls
  let reachable := getReachableFrom graph.calls ∅ entry_points
  let unreachable_methods := graph.all_methods.filter (fun m => decide (m ∉ reachable))
  let dead_instructions := cfgs.filterMap (fun p =>
    if p.1 ∈ reachable then
      if p.2.get_unreachable_nodes ≠ ∅ then some (p.1, p.2.get_unreachable_nodes)
      else none
    else none)
  { cfgs := cfgs
    call_graph := graph
    entry_points := entry_points
    unreachable_methods := unreachable_methods
    dead_instructions := dead_instructions
    total_instructions := (cfgs.map (fun p => p.2.keys.card)).sum }

/-- The single-call relation of the call graph: `b` is among the
recorded callees of `a`. -/
def callStep (calls : List (String × List String)) (a b : String) : Prop :=
  b ∈ lookupCallees calls a

/-! ### Concrete example inputs used by witnesses and counterexamples -/

/-- A straight-line three-instruction method. -/
def exampleBc : List Instr :=
  [{ offset := some 0, opr := "load" },
   { offset := some 1, opr := "load" },
   { offset := some 2, opr := "return" }]

/-- A handler protecting `[0, 2)` with its entry at offset `2`. -/
def exampleHandler : ExceptionHandler :=
  { start_pc := 0, end_pc := 2, handler_pc := 2 }

def exampleHs : List ExceptionHandler := [exampleHandler]

/-- A conditional branch at offset `0` targeting instruction index `2`. -/
def exampleIfInstr : Instr := { offset := some 0, opr := "if", target := some 2 }

/-- A method starting with a conditional branch. -/
def exampleBc2 : List Instr :=
  [exampleIfInstr,
   { offset := some 1, opr := "load" },
   { offset := some 2, opr := "return" }]

/-- A goto at offset `0` whose target index `5` is out of range. -/
def exampleGotoInstr : Instr := { offset := some 0, opr := "goto", target := some 5 }

/-- A method with an unresolvable jump target. -/
def exampleBc9 : List Instr :=
  [exampleGotoInstr, { offset := some 1, opr := "return" }]

/-- A handler descriptor whose indices miss the table and are reversed. -/
def badHandlerData : HandlerData :=
  { startIdx := some 5, endIdx := some 3, handlerIdx := some 99 }

/-- A well-formed handler descriptor for `exampleBc`. -/
def goodHandlerData : HandlerData :=
  { startIdx := some 0, endIdx := some 2, handlerIdx := some 2 }

/-- A class declaring a public and a private overload of `foo`. -/
def exampleOverloadCls : ClassData :=
  { name := "C",
    methods := [{ name := some "foo", access := ["public"] },
                { name := some "foo", access := ["private"] }] }

/-- The private `foo` overload. -/
def examplePrivFoo : Method := { name := some "foo", access := ["private"] }

/-- The public main method of `exampleCls`. -/
def exampleMain : Method :=
  { name := some "main", access := ["public"],
    code := some ⟨[{ offset := some 0, opr := "return" },
                   { offset := some 1, opr := "load" }]⟩ }

/-- A class with one public main method whose second instruction is
unreachable. -/
def exampleCls : ClassData := { name := "C", methods := [exampleMain] }

/-! ### Generic lemmas about the set-as-list operations -/

theorem mem_listInsert {α : Type} [DecidableEq α] (l : List α) (x y : α) :
    y ∈ listInsert l x ↔ y = x ∨ y ∈ l := by
  by_cases h : x ∈ l
  · rw [listInsert, if_pos h]
    constructor
    · exact Or.inr
    · rintro (rfl | hy)
      exacts [h, hy]
  · rw [listInsert, if_neg h]
    simp [or_comm]

theorem nodup_listInsert {α : Type} [DecidableEq α] (l : List α) (x : α)
    (h : l.Nodup) : (listInsert l x).Nodup := by
  rw [listInsert]
  split
  · exact h
  · simp_all [List.nodup_append]

theorem mem_listInsertAll {α : Type} [DecidableEq α] (l xs : List α) (y : α) :
    y ∈ listInsertAll l xs ↔ y ∈ l ∨ y ∈ xs := by
  induction xs generalizing l with
  | nil => simp [listInsertAll]
  | cons x xs ih =>
    rw [listInsertAll, List.foldl_cons]
    rw [show xs.foldl listInsert (listInsert l x) = listInsertAll (listInsert l x) xs from rfl]
    rw [ih, mem_listInsert]
    simp only [List.mem_cons]
    tauto

theorem nodup_listInsertAll {α : Type} [DecidableEq α] (l xs : List α)
    (h : l.Nodup) : (listInsertAll l xs).Nodup := by
  induction xs generalizing l with
  | nil => exact h
  | cons x xs ih =>
    rw [listInsertAll, List.foldl_cons]
    exact ih _ (nodup_listInsert _ _ h)

theorem mem_listToSet {α : Type} [DecidableEq α] (xs : List α) (y : α) :
    y ∈ listToSet xs ↔ y ∈ xs := by
  rw [listToSet, mem_listInsertAll]
  simp

theorem nodup_listToSet {α : Type} [DecidableEq α] (xs : List α) :
    (listToSet xs).Nodup :=
  nodup_listInsertAll _ _ List.nodup_nil

theorem mem_dedupFirstAux (seen l : List Int) (y : Int) :
    y ∈ dedupFirstAux seen l ↔ y ∈ l ∧ y ∉ seen := by
  induction l generalizing seen with
  | nil => simp [dedupFirstAux]
  | cons x xs ih =>
    rw [dedupFirstAux]
    by_cases h : x ∈ seen
    · rw [if_pos h, ih]
      simp only [List.mem_cons]
      constructor
      · rintro ⟨hy, hs⟩; exact ⟨Or.inr hy, hs⟩
      · rintro ⟨hy | hy, hs⟩
        · exact absurd (hy ▸ h) hs
        · exact ⟨hy, hs⟩
    · rw [if_neg h]
      simp only [List.mem_cons, ih, List.mem_cons, not_or]
      constructor
      · rintro (rfl | ⟨hy, h1, h2⟩)
        · exact ⟨Or.inl rfl, h⟩
        · exact ⟨Or.inr hy, h2⟩
      · rintro ⟨rfl | hy, hs⟩
        · exact Or.inl rfl
        · by_cases hyx : y = x
          · exact Or.inl hyx
          · exact Or.inr ⟨hy, hyx, hs⟩

theorem mem_dedupFirst (l : List Int) (y : Int) :
    y ∈ dedupFirst l ↔ y ∈ l := by
  rw [dedupFirst, mem_dedupFirstAux]
  simp

theorem nodup_dedupFirstAux (seen l : List Int) :
    (dedupFirstAux seen l).Nodup := by
  induction l generalizing seen with
  | nil => simp [dedupFirstAux]
  | cons x xs ih =>
    rw [dedupFirstAux]
    split
    · exact ih seen
    · refine List.Nodup.cons (fun hx => ?_) (ih (x :: seen))
      rw [mem_dedupFirstAux] at hx
      exact hx.2 (List.mem_cons_self x seen)

theorem nodup_dedupFirst (l : List Int) : (dedupFirst l).Nodup :=
  nodup_dedupFirstAux [] l

/-! ### Lemmas about offsets, keys and the table -/

theorem getElem?_lt {α : Type} (l : List α) {i : Nat} {a : α}
    (h : l[i]? = some a) : i < l.length := by
  rw [List.getElem?_eq_some] at h
  exact h.1

theorem mem_pcList (bc : List Instr) (x : Int) :
    x ∈ pcList bc ↔ x ∈ rawPcList bc :=
  (List.perm_insertionSort _ _).mem_iff

theorem sorted_pcList (bc : List Instr) : (pcList bc).Sorted (· ≤ ·) :=
  List.sorted_insertionSort _ _

theorem mem_cfgKeys (bc : List Instr) (x : Int) :
    x ∈ cfgKeys bc ↔ x ∈ rawPcList bc :=
  List.mem_toFinset

theorem mem_rawPcList (bc : List Instr) (x : Int) :
    x ∈ rawPcList bc ↔
      ∃ (i : Nat) (instr : Instr), bc[i]? = some instr ∧ 0 ≤ instrOffset instr ∧
        x = instrOffset instr := by
  rw [rawPcList, List.mem_filterMap]
  constructor
  · rintro ⟨i, -, hfi⟩
    cases h : bc[i]? with
    | none => simp only [h] at hfi; exact Option.noConfusion hfi
    | some instr =>
      simp only [h] at hfi
      by_cases h0 : 0 ≤ instrOffset instr
      · rw [if_pos h0] at hfi
        exact ⟨i, instr, h, h0, (Option.some_inj.mp hfi).symm⟩
      · rw [if_neg h0] at hfi; simp at hfi
  · rintro ⟨i, instr, h, h0, rfl⟩
    refine ⟨i, List.mem_range.mpr ?_, ?_⟩
    · exact getElem?_lt bc h
    · simp only [h, if_pos h0]

theorem resolveTarget_mem (tbl : List (Int × Int)) (t off : Int)
    (h : resolveTarget tbl t = some off) : (t, off) ∈ tbl := by
  rw [resolveTarget] at h
  cases hf : tbl.find? (fun p => p.1 == t) with
  | none => rw [hf] at h; simp at h
  | some p =>
    rw [hf] at h
    simp only [Option.map_some', Option.some_inj] at h
    have hp : p.1 = t := by simpa using List.find?_some hf
    have hm := List.mem_of_find?_eq_some hf
    have : p = (t, off) := by
      cases p
      simp_all
    exact this ▸ hm

theorem indexToOffset_mem (bc : List Instr) (p : Int × Int)
    (h : p ∈ indexToOffset bc) : p.2 ∈ rawPcList bc := by
  rw [indexToOffset, List.mem_filterMap] at h
  obtain ⟨i, -, hfi⟩ := h
  cases hbc : bc[i]? with
  | none => simp only [hbc] at hfi; exact Option.noConfusion hfi
  | some instr =>
    simp only [hbc] at hfi
    by_cases h0 : 0 ≤ instrOffset instr
    · rw [if_pos h0] at hfi
      have := (Option.some_inj.mp hfi).symm
      rw [mem_rawPcList]
      exact ⟨i, instr, hbc, h0, by rw [this]⟩
    · rw [if_neg h0] at hfi; simp at hfi

/-! ### Lemmas about the node dict of `CFGBuilder` -/

theorem mem_buildNodesList (bc : List Instr) (hs : List ExceptionHandler)
    (p : Int × CFGNode) :
    p ∈ buildNodesList bc hs ↔
      ∃ (i : Nat) (instr : Instr), bc[i]? = some instr ∧ 0 ≤ instrOffset instr ∧
        p = (instrOffset instr,
          buildNode bc (indexToOffset bc) (leaders bc hs) hs i instr) := by
  rw [buildNodesList, List.mem_filterMap]
  constructor
  · rintro ⟨i, -, hfi⟩
    cases h : bc[i]? with
    | none => simp only [h] at hfi; exact Option.noConfusion hfi
    | some instr =>
      simp only [h] at hfi
      by_cases h0 : 0 ≤ instrOffset instr
      · rw [if_pos h0] at hfi
        exact ⟨i, instr, h, h0, (Option.some_inj.mp hfi).symm⟩
      · rw [if_neg h0] at hfi; simp at hfi
  · rintro ⟨i, instr, h, h0, rfl⟩
    refine ⟨i, List.mem_range.mpr (getElem?_lt bc h), ?_⟩
    simp only [h, if_pos h0]

theorem cfgGet_eq_some (bc : List Instr) (hs : List ExceptionHandler) (o : Int)
    (n : CFGNode) (h : cfgGet bc hs o = some n) : (o, n) ∈ buildNodesList bc hs := by
  rw [cfgGet] at h
  cases hf : (buildNodesList bc hs).reverse.find? (fun p => p.1 == o) with
  | none => rw [hf] at h; simp at h
  | some p =>
    rw [hf] at h
    simp only [Option.map_some', Option.some_inj] at h
    have hp : p.1 = o := by simpa using List.find?_some hf
    have hm := List.mem_of_find?_eq_some hf
    rw [List.mem_reverse] at hm
    have : p = (o, n) := by
      cases p
      simp_all
    exact this ▸ hm

theorem cfgGet_isSome (bc : List Instr) (hs : List ExceptionHandler) (o : Int) :
    (cfgGet bc hs o).isSome ↔ o ∈ cfgKeys bc := by
  rw [cfgGet, Option.isSome_map', List.find?_isSome]
  constructor
  · rintro ⟨p, hp, hpo⟩
    rw [List.mem_reverse] at hp
    have h1 : p.1 = o := by simpa using hpo
    rw [mem_cfgKeys]
    have : p.1 ∈ (buildNodesList bc hs).map Prod.fst := List.mem_map_of_mem Prod.fst hp
    rw [mem_buildNodesList] at hp
    obtain ⟨i, instr, hbc, h0, rfl⟩ := hp
    simp only at h1
    rw [mem_rawPcList]
    exact ⟨i, instr, hbc, h0, h1.symm⟩
  · intro ho
    rw [mem_cfgKeys, mem_rawPcList] at ho
    obtain ⟨i, instr, hbc, h0, rfl⟩ := ho
    refine ⟨(instrOffset instr,
        buildNode bc (indexToOffset bc) (leaders bc hs) hs i instr), ?_, by simp⟩
    rw [List.mem_reverse, mem_buildNodesList]
    exact ⟨i, instr, hbc, h0, rfl⟩

theorem cfgGet_shape (bc : List Instr) (hs : List ExceptionHandler) (o : Int)
    (n : CFGNode) (h : cfgGet bc hs o = some n) :
    ∃ (i : Nat) (instr : Instr), bc[i]? = some instr ∧ 0 ≤ instrOffset instr ∧
      o = instrOffset instr ∧
      n = buildNode bc (indexToOffset bc) (leaders bc hs) hs i instr := by
  have hm := cfgGet_eq_some bc hs o n h
  rw [mem_buildNodesList] at hm
  obtain ⟨i, instr, hbc, h0, hp⟩ := hm
  rw [Prod.mk.injEq] at hp
  exact ⟨i, instr, hbc, h0, hp.1, hp.2⟩

/-! ### C1: exception augmentation -/

/-- C1: in every CFG built by the CFG builder, every node whose offset
lies in a handler's protected range `[start_offset, end_offset)` has
the handler's entry offset in its successor set and records the handler
in its exception-handler list. -/
theorem handler_edges_recorded (bc : List Instr) (hs : List ExceptionHandler)
    (h : ExceptionHandler) (o : Int) (node : CFGNode)
    (hmem : h ∈ hs) (hget : cfgGet bc hs o = some node)
    (h1 : h.start_pc ≤ o) (h2 : o < h.end_pc) :
    h.handler_pc ∈ node.successors ∧ h ∈ node.exception_handlers := by
  obtain ⟨i, instr, hbc, h0, rfl, rfl⟩ := cfgGet_shape bc hs o node hget
  constructor
  · rw [buildNode]
    simp only
    rw [mem_listInsertAll]
    right
    rw [List.mem_map]
    exact ⟨h, List.mem_filter.mpr ⟨hmem, by simp [h1, h2]⟩, rfl⟩
  · rw [buildNode]
    simp only
    exact List.mem_filter.mpr ⟨hmem, by simp [h1, h2]⟩

/-- Witness for C1: in the three-instruction method with protected
range `[0, 2)` and handler entry `2`, the node at offset `0` gets the
edge to `2` and records the handler. -/
theorem handler_edges_recorded_witness :
    ∃ node, cfgGet exampleBc exampleHs 0 = some node ∧
      exampleHandler.handler_pc ∈ node.successors ∧
      exampleHandler ∈ node.exception_handlers := by
  cases hget : cfgGet exampleBc exampleHs 0 with
  | none => exact absurd hget (by decide)
  | some node =>
    exact ⟨node, rfl,
      handler_edges_recorded exampleBc exampleHs exampleHandler 0 node
        (by decide) hget (by decide) (by decide)⟩

/-! ### C2: the successor case analysis of `_compute_successors` -/

/-- C2: the computed successor set follows the per-kind case analysis:
conditional branch = fallthrough plus resolved target; goto = resolved
target only; return/throw = none; switch = resolved default plus all
resolved case targets, duplicates removed; anything else = the next
instruction's offset, or none at the end of the method. -/
theorem compute_successors_spec (bc : List Instr) (tbl : List (Int × Int))
    (i : Nat) (instr : Instr) (hbc : bc[i]? = some instr)
    (h0 : 0 ≤ instrOffset instr) :
    ((instr.opr = "if" ∨ instr.opr = "ifz") →
      ∀ t toff noff, instr.target = some t → resolveTarget tbl t = some toff →
        nextOffset bc i = some noff →
        (computeSuccessors bc tbl i instr).toFinset = {noff, toff}) ∧
    (instr.opr = "goto" →
      ∀ t toff, instr.target = some t → resolveTarget tbl t = some toff →
        computeSuccessors bc tbl i instr = [toff]) ∧
    ((instr.opr = "return" ∨ instr.opr = "throw") →
      computeSuccessors bc tbl i instr = []) ∧
    (instr.opr = "tableswitch" →
      ∀ d doff, instr.default = some d → resolveTarget tbl d = some doff →
        (computeSuccessors bc tbl i instr).Nodup ∧
        (computeSuccessors bc tbl i instr).toFinset =
          insert doff (instr.targets.filterMap (fun c =>
            match c with
            | .int ci => resolveTarget tbl ci
            | .dict _ => none)).toFinset) ∧
    (instr.opr = "lookupswitch" →
      ∀ d doff, instr.default = some d → resolveTarget tbl d = some doff →
        (computeSuccessors bc tbl i instr).Nodup ∧
        (computeSuccessors bc tbl i instr).toFinset =
          insert doff (instr.targets.filterMap (fun c =>
            match c with
            | .int _ => none
            | .dict ti =>
                match ti with
                | some t => resolveTarget tbl t
                | none => none)).toFinset) ∧
    (instr.opr ∉ (["if", "ifz", "goto", "return", "throw", "tableswitch",
        "lookupswitch"] : List String) →
      (∀ noff, nextOffset bc i = some noff →
        computeSuccessors bc tbl i instr = [noff]) ∧
      (nextOffset bc i = none → computeSuccessors bc tbl i instr = [])) := by
  refine ⟨?_, ?_, ?_, ?_, ?_, ?_⟩
  · rintro (h | h) t toff noff ht hres hnext <;>
      simp [computeSuccessors, h, ht, hres, hnext]
  · intro h t toff ht hres
    simp [computeSuccessors, h, ht, hres]
  · rintro (h | h) <;> simp [computeSuccessors, h]
  · intro h d doff hd hres
    refine ⟨?_, ?_⟩
    · simp only [computeSuccessors, h]
      simp only [show ¬("tableswitch" = "return" ∨ "tableswitch" = "throw") by decide,
        if_false, if_neg (show ¬("tableswitch" = "if" ∨ "tableswitch" = "ifz") by decide),
        if_neg (show ¬("tableswitch" = "goto") by decide),
        if_pos (show ("tableswitch" = "tableswitch" ∨ "tableswitch" = "lookupswitch") by decide)]
      exact nodup_dedupFirst _
    · ext x
      simp [computeSuccessors, h, mem_dedupFirst, branchTargets, hd, hres]
  · intro h d doff hd hres
    refine ⟨?_, ?_⟩
    · simp only [computeSuccessors, h]
      simp only [show ¬("lookupswitch" = "return" ∨ "lookupswitch" = "throw") by decide,
        if_false, if_neg (show ¬("lookupswitch" = "if" ∨ "lookupswitch" = "ifz") by decide),
        if_neg (show ¬("lookupswitch" = "goto") by decide),
        if_pos (show ("lookupswitch" = "tableswitch" ∨ "lookupswitch" = "lookupswitch") by decide)]
      exact nodup_dedupFirst _
    · ext x
      simp [computeSuccessors, h, mem_dedupFirst, branchTargets, hd, hres]
  · intro h
    simp only [List.mem_cons, List.mem_singleton, not_or] at h
    obtain ⟨hif, hifz, hgoto, hret, hthrow, htab, hlook, -⟩ := h
    constructor
    · intro noff hnext
      simp [computeSuccessors, hif, hifz, hgoto, hret, hthrow, htab, hlook, hnext]
    · intro hnext
      simp [computeSuccessors, hif, hifz, hgoto, hret, hthrow, htab, hlook, hnext]

/-- Witness for C2: the conditional branch of `exampleBc2` gets both
the fallthrough offset `1` and the resolved target offset `2`. -/
theorem compute_successors_spec_witness :
    (computeSuccessors exampleBc2 (indexToOffset exampleBc2) 0 exampleIfInstr).toFinset
      = {1, 2} :=
  (compute_successors_spec exampleBc2 (indexToOffset exampleBc2) 0 exampleIfInstr
      (by decide) (by decide)).1 (Or.inl rfl) 2 2 1 rfl (by decide) (by decide)

/-! ### C6: edge symmetry between successors and predecessors -/

theorem cfgItems_mem (bc : List Instr) (hs : List ExceptionHandler)
    (p : Int × CFGNode) :
    p ∈ cfgItems bc hs ↔ p.1 ∈ cfgKeys bc ∧ cfgGet bc hs p.1 = some p.2 := by
  rw [cfgItems, List.mem_filterMap]
  constructor
  · rintro ⟨o, ho, hmap⟩
    cases hg : cfgGet bc hs o with
    | none => rw [hg] at hmap; simp at hmap
    | some n =>
      rw [hg] at hmap
      simp only [Option.map_some', Option.some_inj] at hmap
      rw [← hmap]
      rw [mem_dedupFirst] at ho
      exact ⟨(mem_cfgKeys bc o).mpr ho, hg⟩
  · rintro ⟨hk, hg⟩
    refine ⟨p.1, (mem_dedupFirst _ _).mpr ((mem_cfgKeys bc p.1).mp hk), ?_⟩
    rw [hg]
    simp

theorem predFold_inner_mem (a : Int) (keys : Finset Int) (L : List Int)
    (acc : Int → List Int) (o x : Int) :
    x ∈ (L.foldl (fun acc2 s =>
        if s ∈ keys then
          (fun o' => if o' = s then listInsert (acc2 o') a else acc2 o')
        else acc2) acc) o ↔
      x ∈ acc o ∨ (x = a ∧ o ∈ L ∧ o ∈ keys) := by
  induction L generalizing acc with
  | nil => simp
  | cons s L ih =>
    rw [List.foldl_cons, ih]
    by_cases hk : s ∈ keys
    · by_cases ho : o = s
      · subst ho
        simp [hk, mem_listInsert]
        tauto
      · simp [hk, ho]
    · simp only [if_neg hk, List.mem_cons]
      constructor
      · rintro (h | ⟨rfl, ho, hko⟩)
        · exact Or.inl h
        · exact Or.inr ⟨rfl, Or.inr ho, hko⟩
      · rintro (h | ⟨rfl, rfl | ho, hko⟩)
        · exact Or.inl h
        · exact absurd hko hk
        · exact Or.inr ⟨rfl, ho, hko⟩

theorem predMap_mem (bc : List Instr) (hs : List ExceptionHandler) (o x : Int) :
    x ∈ predMap bc hs o ↔
      ∃ p ∈ cfgItems bc hs, p.1 = x ∧ o ∈ p.2.successors ∧ o ∈ cfgKeys bc := by
  have main : ∀ (items : List (Int × CFGNode)) (acc : Int → List Int),
      x ∈ (items.foldl (fun acc2 p =>
          p.2.successors.foldl (fun acc3 s =>
              if s ∈ cfgKeys bc then
                fun o' => if o' = s then listInsert (acc3 o') p.1 else acc3 o'
              else acc3) acc2) acc) o ↔
        x ∈ acc o ∨ ∃ p ∈ items, p.1 = x ∧ o ∈ p.2.successors ∧ o ∈ cfgKeys bc := by
    intro items
    induction items with
    | nil => simp
    | cons q items ih =>
      intro acc
      rw [List.foldl_cons, ih, predFold_inner_mem]
      simp only [List.mem_cons]
      constructor
      · rintro ((h | ⟨rfl, hsq, hk⟩) | ⟨p, hp, hpx, hos, hk⟩)
        · exact Or.inl h
        · exact Or.inr ⟨q, Or.inl rfl, rfl, hsq, hk⟩
        · exact Or.inr ⟨p, Or.inr hp, hpx, hos, hk⟩
      · rintro (h | ⟨p, hp | hp, hpx, hos, hk⟩)
        · exact Or.inl (Or.inl h)
        · subst hp
          exact Or.inl (Or.inr ⟨hpx.symm, hos, hk⟩)
        · exact Or.inr ⟨p, hp, hpx, hos, hk⟩
  rw [predMap, main]
  simp

/-- C6: in a built CFG, for offsets `a`, `b` that are both node keys,
`b` is a successor of `a` exactly when `a` is a predecessor of `b`. -/
theorem edge_symmetry (bc : List Instr) (hs : List ExceptionHandler) (a b : Int)
    (ha : a ∈ cfgKeys bc) (hb : b ∈ cfgKeys bc) :
    b ∈ cfgSucc bc hs a ↔ a ∈ predMap bc hs b := by
  rw [predMap_mem]
  constructor
  · intro hsb
    cases hg : cfgGet bc hs a with
    | none => simp only [cfgSucc, hg] at hsb; exact absurd hsb (List.not_mem_nil b)
    | some n =>
      simp only [cfgSucc, hg] at hsb
      exact ⟨(a, n), (cfgItems_mem bc hs (a, n)).mpr ⟨ha, hg⟩, rfl, hsb, hb⟩
  · rintro ⟨p, hp, hpa, hbs, -⟩
    obtain ⟨-, hpget⟩ := (cfgItems_mem bc hs p).mp hp
    rw [hpa] at hpget
    simp only [cfgSucc, hpget]
    exact hbs

/-- Witness for C6 at the concrete method: the fallthrough edge from
offset `0` to offset `1` appears in both directions. -/
theorem edge_symmetry_witness :
    ((1 : Int) ∈ cfgSucc exampleBc exampleHs 0 ↔
      (0 : Int) ∈ predMap exampleBc exampleHs 1) :=
  edge_symmetry exampleBc exampleHs 0 1 (by decide) (by decide)

/-! ### C3/C4: basic blocks partition the CFG -/

theorem foldl_nodup {α β : Type} [DecidableEq α] (F : List α → β → List α)
    (hF : ∀ acc b, acc.Nodup → (F acc b).Nodup) :
    ∀ (l : List β) (acc : List α), acc.Nodup → (l.foldl F acc).Nodup := by
  intro l
  induction l with
  | nil => exact fun acc h => h
  | cons b l ih => exact fun acc h => ih (F acc b) (hF acc b h)

theorem foldl_mem_mono {α β : Type} (F : List α → β → List α) (x : α)
    (hF : ∀ acc b, x ∈ acc → x ∈ F acc b) :
    ∀ (l : List β) (acc : List α), x ∈ acc → x ∈ l.foldl F acc := by
  intro l
  induction l with
  | nil => exact fun acc h => h
  | cons b l ih => exact fun acc h => ih (F acc b) (hF acc b h)

theorem nodup_leaders (bc : List Instr) (hs : List ExceptionHandler) :
    (leaders bc hs).Nodup := by
  rw [leaders]
  cases pcList bc with
  | nil => exact List.nodup_nil
  | cons first rest =>
    apply foldl_nodup
    · intro acc h hn
      split
      · exact nodup_listInsert _ _ hn
      · exact hn
    · apply foldl_nodup
      · intro acc i hn
        cases bc[i]? with
        | none => exact hn
        | some instr => exact nodup_listInsertAll _ _ hn
      · simp

theorem first_mem_leaders (bc : List Instr) (hs : List ExceptionHandler)
    (first : Int) (rest : List Int) (hpc : pcList bc = first :: rest) :
    first ∈ leaders bc hs := by
  rw [leaders, hpc]
  apply foldl_mem_mono
  · intro acc h hm
    split
    · exact (mem_listInsert _ _ _).mpr (Or.inr hm)
    · exact hm
  · apply foldl_mem_mono
    · intro acc i hm
      cases bc[i]? with
      | none => exact hm
      | some instr => exact (mem_listInsertAll _ _ _).mpr (Or.inl hm)
    · exact List.mem_cons_self first _

theorem mem_blockSpan_filter (keys : Finset Int) (pcs : List Int) (l : Int)
    (upper : Option Int) (o : Int) :
    o ∈ pcs.filter (blockSpan keys l upper) ↔
      o ∈ pcs ∧ l ≤ o ∧ (∀ u, upper = some u → o < u) ∧ o ∈ keys := by
  rw [List.mem_filter]
  unfold blockSpan
  cases upper with
  | none => simp
  | some u => simp [and_assoc]

theorem mem_buildBlocksAux (keys : Finset Int) (pcs : List Int) (L : List Int)
    (hL : L.Sorted (· < ·)) (bid : Nat) (o : Int) :
    (∃ b ∈ buildBlocksAux keys pcs L bid, o ∈ b.pcs) ↔
      o ∈ pcs ∧ o ∈ keys ∧ ∃ l ∈ L, l ≤ o := by
  induction L generalizing bid with
  | nil => simp [buildBlocksAux]
  | cons l rest ih =>
    have hrest : rest.Sorted (· < ·) := hL.of_cons
    have hlt : ∀ r ∈ rest, l < r := List.rel_of_sorted_cons hL
    simp only [buildBlocksAux]
    by_cases hemp : (pcs.filter (blockSpan keys l rest.head?)).isEmpty
    · rw [if_pos hemp, ih hrest]
      have hempty : ∀ a ∈ pcs, ¬ blockSpan keys l rest.head? a = true := by
        rw [← List.filter_eq_nil_iff]
        exact List.isEmpty_iff.mp hemp
      constructor
      · rintro ⟨h1, h2, l', hl', hle⟩
        exact ⟨h1, h2, l', List.mem_cons_of_mem _ hl', hle⟩
      · rintro ⟨h1, h2, l', hl', hle⟩
        rcases List.mem_cons.mp hl' with heq | hmem
        · subst heq
          refine ⟨h1, h2, ?_⟩
          cases hr : rest.head? with
          | none =>
            exfalso
            apply hempty o h1
            simp [blockSpan, hle, h2, hr]
          | some u =>
            by_cases hu : o < u
            · exfalso
              apply hempty o h1
              simp [blockSpan, hle, h2, hr, hu]
            · push_neg at hu
              exact ⟨u, List.mem_of_mem_head? hr, hu⟩
        · exact ⟨h1, h2, l', hmem, hle⟩
    · rw [if_neg hemp]
      constructor
      · rintro ⟨b, hb, hob⟩
        rcases List.mem_cons.mp hb with heq | hb2
        · subst heq
          obtain ⟨h1, h2, -, h4⟩ := (mem_blockSpan_filter keys pcs l rest.head? o).mp hob
          exact ⟨h1, h4, l, List.mem_cons_self l rest, h2⟩
        · obtain ⟨h1, h2, l', hl', hle⟩ := (ih hrest (bid + 1)).mp ⟨b, hb2, hob⟩
          exact ⟨h1, h2, l', List.mem_cons_of_mem _ hl', hle⟩
      · rintro ⟨h1, h2, l', hl', hle⟩
        rcases List.mem_cons.mp hl' with heq | hmem
        · subst heq
          cases hr : rest.head? with
          | none =>
            refine ⟨_, List.mem_cons_self _ _, ?_⟩
            rw [mem_blockSpan_filter]
            refine ⟨h1, hle, ?_, h2⟩
            intro u hu
            exact Option.noConfusion hu
          | some u =>
            by_cases hu : o < u
            · refine ⟨_, List.mem_cons_self _ _, ?_⟩
              rw [mem_blockSpan_filter]
              refine ⟨h1, hle, ?_, h2⟩
              intro u' hu'
              exact (Option.some_inj.mp hu') ▸ hu
            · push_neg at hu
              obtain ⟨b, hb, hob⟩ := (ih hrest (bid + 1)).mpr
                ⟨h1, h2, u, List.mem_of_mem_head? hr, hu⟩
              exact ⟨b, List.mem_cons_of_mem _ hb, hob⟩
        · obtain ⟨b, hb, hob⟩ := (ih hrest (bid + 1)).mpr ⟨h1, h2, l', hmem, hle⟩
          exact ⟨b, List.mem_cons_of_mem _ hb, hob⟩

theorem buildBlocksAux_lb (keys : Finset Int) (pcs : List Int) (L : List Int)
    (bid : Nat) (c : Int) (hc : ∀ l ∈ L, c ≤ l) :
    ∀ b ∈ buildBlocksAux keys pcs L bid, ∀ o ∈ b.pcs, c ≤ o := by
  induction L generalizing bid with
  | nil => simp [buildBlocksAux]
  | cons l rest ih =>
    simp only [buildBlocksAux]
    by_cases hemp : (pcs.filter (blockSpan keys l rest.head?)).isEmpty
    · rw [if_pos hemp]
      exact ih bid (fun l' hl' => hc l' (List.mem_cons_of_mem _ hl'))
    · rw [if_neg hemp]
      intro b hb o ho
      rcases List.mem_cons.mp hb with heq | hb2
      · subst heq
        obtain ⟨-, h2, -, -⟩ := (mem_blockSpan_filter keys pcs l rest.head? o).mp ho
        exact le_trans (hc l (List.mem_cons_self l rest)) h2
      · exact ih (bid + 1) (fun l' hl' => hc l' (List.mem_cons_of_mem _ hl')) b hb2 o ho

theorem sorted_head?_le (l : List Int) (u : Int) (hl : l.Sorted (· < ·))
    (hu : l.head? = some u) : ∀ x ∈ l, u ≤ x := by
  cases l with
  | nil => simp at hu
  | cons a t =>
    simp only [List.head?_cons, Option.some_inj] at hu
    subst hu
    intro x hx
    rcases List.mem_cons.mp hx with heq | hmem
    · exact le_of_eq heq.symm
    · exact le_of_lt (List.rel_of_sorted_cons hl x hmem)

theorem buildBlocksAux_pairwise (keys : Finset Int) (pcs : List Int)
    (L : List Int) (hL : L.Sorted (· < ·)) (bid : Nat) :
    (buildBlocksAux keys pcs L bid).Pairwise
      (fun b1 b2 => ∀ o ∈ b1.pcs, ∀ o' ∈ b2.pcs, o < o') := by
  induction L generalizing bid with
  | nil => simp [buildBlocksAux]
  | cons l rest ih =>
    have hrest : rest.Sorted (· < ·) := hL.of_cons
    simp only [buildBlocksAux]
    by_cases hemp : (pcs.filter (blockSpan keys l rest.head?)).isEmpty
    · rw [if_pos hemp]
      exact ih hrest bid
    · rw [if_neg hemp]
      refine List.Pairwise.cons ?_ (ih hrest (bid + 1))
      intro b2 hb2 o ho o' ho'
      cases hr : rest.head? with
      | none =>
        rw [List.head?_eq_none_iff] at hr
        rw [hr] at hb2
        simp [buildBlocksAux] at hb2
      | some u =>
        have hou : o < u := by
          obtain ⟨-, -, h3, -⟩ := (mem_blockSpan_filter keys pcs l rest.head? o).mp ho
          exact h3 u hr
        have huo' : u ≤ o' :=
          buildBlocksAux_lb keys pcs rest (bid + 1) u
            (sorted_head?_le rest u hrest hr) b2 hb2 o' ho'
        exact lt_of_lt_of_le hou huo'

theorem buildBlocksAux_shape (keys : Finset Int) (pcs : List Int) (L : List Int)
    (bid : Nat) :
    ∀ b ∈ buildBlocksAux keys pcs L bid,
      b.pcs ≠ [] ∧ ∀ o ∈ b.pcs, o ∈ pcs ∧ o ∈ keys := by
  induction L generalizing bid with
  | nil => simp [buildBlocksAux]
  | cons l rest ih =>
    simp only [buildBlocksAux]
    by_cases hemp : (pcs.filter (blockSpan keys l rest.head?)).isEmpty
    · rw [if_pos hemp]
      exact ih bid
    · rw [if_neg hemp]
      intro b hb
      rcases List.mem_cons.mp hb with heq | hb2
      · subst heq
        refine ⟨by simpa using hemp, ?_⟩
        intro o ho
        obtain ⟨h1, -, -, h4⟩ := (mem_blockSpan_filter keys pcs l rest.head? o).mp ho
        exact ⟨h1, h4⟩
      · exact ih (bid + 1) b hb2

theorem buildBlocksAux_head (keys : Finset Int) (pcs : List Int) (L : List Int)
    (hL : L.Sorted (· < ·)) (hsorted : pcs.Sorted (· ≤ ·)) (m : Int)
    (hmL : m ∈ L) (hmp : m ∈ pcs) (hmk : m ∈ keys) (hlb : ∀ o ∈ pcs, m ≤ o) :
    ∃ b, (buildBlocksAux keys pcs L 0).head? = some b ∧ b.block_id = 0 ∧
      b.pcs.head? = some m := by
  induction L with
  | nil => cases hmL
  | cons l rest ih =>
    rcases List.mem_cons.mp hmL with heq | hm
    · subst heq
      simp only [buildBlocksAux]
      have hob : m ∈ pcs.filter (blockSpan keys m rest.head?) := by
        rw [mem_blockSpan_filter]
        refine ⟨hmp, le_refl m, ?_, hmk⟩
        intro u hu
        exact (List.rel_of_sorted_cons hL) u (List.mem_of_mem_head? hu)
      have hemp : ¬ (pcs.filter (blockSpan keys m rest.head?)).isEmpty := by
        intro hc
        rw [List.isEmpty_iff] at hc
        rw [hc] at hob
        exact List.not_mem_nil m hob
      rw [if_neg hemp]
      refine ⟨⟨0, pcs.filter (blockSpan keys m rest.head?)⟩, rfl, rfl, ?_⟩
      cases hb : pcs.filter (blockSpan keys m rest.head?) with
      | nil => rw [hb] at hob; exact absurd hob (List.not_mem_nil m)
      | cons h0 t0 =>
        have hsf : (pcs.filter (blockSpan keys m rest.head?)).Sorted (· ≤ ·) :=
          hsorted.filter _
        rw [hb] at hsf hob
        have h0m : m ≤ h0 := by
          have hh0 : h0 ∈ pcs.filter (blockSpan keys m rest.head?) := by
            rw [hb]
            exact List.mem_cons_self h0 t0
          exact hlb h0 (List.mem_of_mem_filter hh0)
        have hm0 : h0 ≤ m := by
          rcases List.mem_cons.mp hob with heq2 | hmem
          · exact le_of_eq heq2.symm
          · exact (List.rel_of_sorted_cons hsf) m hmem
        simp [le_antisymm hm0 h0m]
    · have hlm : l < m := (List.rel_of_sorted_cons hL) m hm
      simp only [buildBlocksAux]
      have hu : rest.head? = some rest.head! ∨ rest = [] := by
        cases rest with
        | nil => exact Or.inr rfl
        | cons a t => exact Or.inl rfl
      rcases hu with hu | hnil
      case inr => rw [hnil] at hm; cases hm
      have hum : rest.head! ≤ m := sorted_head?_le rest rest.head! hL.of_cons hu m hm
      have hemp : (pcs.filter (blockSpan keys l rest.head?)).isEmpty := by
        rw [List.isEmpty_iff, List.filter_eq_nil_iff]
        intro o hop hspan
        obtain ⟨-, -, h3, -⟩ := (mem_blockSpan_filter keys pcs l rest.head? o).mp
          (List.mem_filter.mpr ⟨hop, hspan⟩)
        have h4 : o < rest.head! := h3 rest.head! hu
        have h5 : m ≤ o := hlb o hop
        omega
      rw [if_pos hemp]
      exact ih hL.of_cons hm
theorem leaders_sort_sorted_lt (bc : List Instr) (hs : List ExceptionHandler) :
    (List.insertionSort (· ≤ ·) (leaders bc hs)).Sorted (· < ·) :=
  (List.sorted_insertionSort _ _).lt_of_le
    ((List.perm_insertionSort _ _).nodup_iff.mpr (nodup_leaders bc hs))

theorem pcList_first_le (bc : List Instr) (first : Int) (rest : List Int)
    (hpc : pcList bc = first :: rest) : ∀ o ∈ pcList bc, first ≤ o := by
  intro o ho
  rw [hpc] at ho
  rcases List.mem_cons.mp ho with heq | hmem
  · exact le_of_eq heq.symm
  · exact (List.rel_of_sorted_cons (hpc ▸ sorted_pcList bc)) o hmem

theorem blocks_cover (bc : List Instr) (hs : List ExceptionHandler)
    (first : Int) (rest : List Int) (hpc : pcList bc = first :: rest) (o : Int) :
    (∃ b ∈ basicBlocks bc hs, o ∈ b.pcs) ↔ o ∈ cfgKeys bc := by
  rw [basicBlocks, mem_buildBlocksAux _ _ _ (leaders_sort_sorted_lt bc hs)]
  constructor
  · rintro ⟨-, h2, -⟩
    exact h2
  · intro h2
    have h1 : o ∈ pcList bc := (mem_pcList bc o).mpr ((mem_cfgKeys bc o).mp h2)
    refine ⟨h1, h2, first, ?_, pcList_first_le bc first rest hpc o h1⟩
    exact (List.perm_insertionSort _ _).mem_iff.mpr
      (first_mem_leaders bc hs first rest hpc)

theorem blocks_disjoint (bc : List Instr) (hs : List ExceptionHandler) :
    ∀ b1 ∈ basicBlocks bc hs, ∀ b2 ∈ basicBlocks bc hs, b1 ≠ b2 →
      ∀ o ∈ b1.pcs, o ∉ b2.pcs := by
  intro b1 hb1 b2 hb2 hne12 o ho1 ho2
  have hpw := buildBlocksAux_pairwise (cfgKeys bc) (pcList bc)
    (List.insertionSort (· ≤ ·) (leaders bc hs)) (leaders_sort_sorted_lt bc hs) 0
  have hpw2 : (basicBlocks bc hs).Pairwise
      (fun b1 b2 => ∀ o ∈ b1.pcs, o ∉ b2.pcs) := by
    rw [basicBlocks]
    refine hpw.imp ?_
    intro x y hxy o hox hoy
    exact lt_irrefl o (hxy o hox o hoy)
  have hsym : Symmetric (fun b1 b2 : BasicBlock => ∀ o ∈ b1.pcs, o ∉ b2.pcs) := by
    intro x y hxy o hoy hox
    exact hxy o hox hoy
  exact List.Pairwise.forall hsym hpw2 hb1 hb2 hne12 o ho1 ho2

theorem blocks_head0 (bc : List Instr) (hs : List ExceptionHandler)
    (first : Int) (rest : List Int) (hpc : pcList bc = first :: rest) :
    ∃ b, (basicBlocks bc hs).head? = some b ∧ b.block_id = 0 ∧
      b.pcs.head? = some first := by
  have hfp : first ∈ pcList bc := by
    rw [hpc]
    exact List.mem_cons_self _ _
  exact buildBlocksAux_head (cfgKeys bc) (pcList bc) _
    (leaders_sort_sorted_lt bc hs) (sorted_pcList bc) first
    ((List.perm_insertionSort _ _).mem_iff.mpr (first_mem_leaders bc hs first rest hpc))
    hfp ((mem_cfgKeys bc first).mpr ((mem_pcList bc first).mp hfp))
    (pcList_first_le bc first rest hpc)

/-- C3: the basic blocks partition the CFG's node set — their union is
the node set, distinct blocks are disjoint, and the method's first
offset starts block `0`. -/
theorem basic_block_partition (bc : List Instr) (hs : List ExceptionHandler)
    (hne : pcList bc ≠ []) :
    (∀ o, (∃ b ∈ basicBlocks bc hs, o ∈ b.pcs) ↔ o ∈ cfgKeys bc) ∧
    (∀ b1 ∈ basicBlocks bc hs, ∀ b2 ∈ basicBlocks bc hs, b1 ≠ b2 →
      ∀ o ∈ b1.pcs, o ∉ b2.pcs) ∧
    (∃ b, (basicBlocks bc hs).head? = some b ∧ b.block_id = 0 ∧
      b.pcs.head? = (pcList bc).head?) := by
  obtain ⟨first, rest, hpc⟩ : ∃ f r, pcList bc = f :: r := by
    cases hpcl : pcList bc with
    | nil => exact absurd hpcl hne
    | cons f r => exact ⟨f, r, rfl⟩
  refine ⟨blocks_cover bc hs first rest hpc, blocks_disjoint bc hs, ?_⟩
  obtain ⟨b, h1, h2, h3⟩ := blocks_head0 bc hs first rest hpc
  refine ⟨b, h1, h2, ?_⟩
  rw [h3, hpc]
  rfl

/-- Witness for C3: the concrete method's first offset `0` starts block
`0`. -/
theorem basic_block_partition_witness :
    ∃ b, (basicBlocks exampleBc exampleHs).head? = some b ∧ b.block_id = 0 ∧
      b.pcs.head? = (pcList exampleBc).head? :=
  (basic_block_partition exampleBc exampleHs (by decide)).2.2

/-- C4 fails as stated: in the concrete method with protected range
`[0, 2)` and handler entry `2`, offset `0` is not the last node of its
block yet has the cross-block successor `2` (the exception edge). -/
theorem block_cross_successor_cex :
    ∃ b ∈ basicBlocks exampleBc exampleHs, ∃ o ∈ b.pcs,
      b.pcs.getLast? ≠ some o ∧
      ∃ s ∈ cfgSucc exampleBc exampleHs o, s ∉ b.pcs := by decide

/-- C4 (amended): every CFG node belongs to a block, and the
block-level successor edges are exactly the images of the last node's
in-dict successors under the block-id assignment; an interior node may
still have a successor outside its block via an exception-handler
edge. -/
theorem block_successor_edges (bc : List Instr) (hs : List ExceptionHandler)
    (hne : pcList bc ≠ []) :
    (∀ o ∈ cfgKeys bc, (blockIdOf bc hs o).isSome) ∧
    ∀ b ∈ basicBlocks bc hs,
      ∃ lastPc node, b.pcs.getLast? = some lastPc ∧
        cfgGet bc hs lastPc = some node ∧
        ∀ j, j ∈ blockSuccessors bc hs b ↔
          ∃ s ∈ node.successors, s ∈ cfgKeys bc ∧ blockIdOf bc hs s = some j := by
  obtain ⟨first, rest, hpc⟩ : ∃ f r, pcList bc = f :: r := by
    cases hpcl : pcList bc with
    | nil => exact absurd hpcl hne
    | cons f r => exact ⟨f, r, rfl⟩
  constructor
  · intro o ho
    obtain ⟨b, hb, hob⟩ := (blocks_cover bc hs first rest hpc o).mpr ho
    rw [blockIdOf, Option.isSome_map', List.find?_isSome]
    exact ⟨b, hb, by simpa using hob⟩
  · intro b hb
    have hshape := buildBlocksAux_shape (cfgKeys bc) (pcList bc)
      (List.insertionSort (· ≤ ·) (leaders bc hs)) 0 b (by rwa [basicBlocks] at hb)
    obtain ⟨hne2, hkeys⟩ := hshape
    obtain ⟨lastPc, hlast⟩ : ∃ a, b.pcs.getLast? = some a := by
      cases hl : b.pcs.getLast? with
      | none => exact absurd (List.getLast?_eq_none_iff.mp hl) hne2
      | some a => exact ⟨a, rfl⟩
    have hlmem : lastPc ∈ b.pcs := List.mem_of_mem_getLast? hlast
    have hlk : lastPc ∈ cfgKeys bc := (hkeys lastPc hlmem).2
    obtain ⟨node, hget⟩ : ∃ n, cfgGet bc hs lastPc = some n := by
      cases hg : cfgGet bc hs lastPc with
      | none =>
        exfalso
        have hsm := (cfgGet_isSome bc hs lastPc).mpr hlk
        rw [hg] at hsm
        simp at hsm
      | some n => exact ⟨n, rfl⟩
    refine ⟨lastPc, node, hlast, hget, ?_⟩
    intro j
    simp only [blockSuccessors, hlast, hget, mem_listToSet, List.mem_filterMap,
      List.mem_filter, decide_eq_true_eq]
    constructor
    · rintro ⟨s, ⟨hs1, hs2⟩, hs3⟩
      exact ⟨s, hs1, hs2, hs3⟩
    · rintro ⟨s, hs1, hs2, hs3⟩
      exact ⟨s, ⟨hs1, hs2⟩, hs3⟩

/-- Witness for C4 (amended) at the concrete method: offset `2` has a
block id. -/
theorem block_successor_edges_witness :
    (blockIdOf exampleBc exampleHs 2).isSome :=
  (block_successor_edges exampleBc exampleHs (by decide)).1 2 (by decide)

/-! ### C5: the resolved exception-handler invariants -/

/-- C5 fails as stated: a descriptor whose indices miss the table keeps
its raw values, so `from_json` can produce a handler with
`start_pc ≥ end_pc` and a `handler_pc` that is no instruction offset. -/
theorem handler_invariant_cex :
    ¬ ((ExceptionHandler.from_json badHandlerData (indexToOffset exampleBc)).start_pc <
        (ExceptionHandler.from_json badHandlerData (indexToOffset exampleBc)).end_pc ∧
      (ExceptionHandler.from_json badHandlerData (indexToOffset exampleBc)).handler_pc
        ∈ rawPcList exampleBc) := by decide

/-- C5 (amended): when the descriptor's start, end and handler indices
all resolve through the method's index-to-offset table, the table maps
larger indices to larger offsets, and the start index is below the end
index, the resolved handler satisfies `start_pc < end_pc` and its
`handler_pc` is the offset of an instruction of the method. -/
theorem handler_invariant_amended (bc : List Instr) (data : HandlerData)
    (so eo hoff : Int)
    (hmono : ∀ p ∈ indexToOffset bc, ∀ q ∈ indexToOffset bc, p.1 < q.1 → p.2 < q.2)
    (hstart : resolveTarget (indexToOffset bc) (data.startIdx.getD 0) = some so)
    (hend : resolveTarget (indexToOffset bc) (data.endIdx.getD 0) = some eo)
    (hhand : resolveTarget (indexToOffset bc) (data.handlerIdx.getD 0) = some hoff)
    (hlt : data.startIdx.getD 0 < data.endIdx.getD 0) :
    (ExceptionHandler.from_json data (indexToOffset bc)).start_pc <
      (ExceptionHandler.from_json data (indexToOffset bc)).end_pc ∧
    (ExceptionHandler.from_json data (indexToOffset bc)).handler_pc
      ∈ rawPcList bc := by
  have htne : ¬ (indexToOffset bc).isEmpty = true := by
    intro hc
    rw [List.isEmpty_iff] at hc
    rw [resolveTarget, hc] at hstart
    simp at hstart
  rw [ExceptionHandler.from_json]
  simp only [if_neg htne, hstart, hend, hhand, Option.getD_some]
  constructor
  · exact hmono _ (resolveTarget_mem _ _ _ hstart) _ (resolveTarget_mem _ _ _ hend) hlt
  · exact indexToOffset_mem bc _ (resolveTarget_mem _ _ _ hhand)

/-- Witness for C5 (amended): the well-formed descriptor over the
concrete method resolves to a handler satisfying both invariants. -/
theorem handler_invariant_amended_witness :
    (ExceptionHandler.from_json goodHandlerData (indexToOffset exampleBc)).start_pc <
      (ExceptionHandler.from_json goodHandlerData (indexToOffset exampleBc)).end_pc ∧
    (ExceptionHandler.from_json goodHandlerData (indexToOffset exampleBc)).handler_pc
      ∈ rawPcList exampleBc :=
  handler_invariant_amended exampleBc goodHandlerData 0 2 2
    (by decide) (by decide) (by decide) (by decide) (by decide)

/-! ### C7: the entry-point rule -/

/-- C7 fails as stated: with a public and a private overload of `foo`,
the private method's identifier is placed in the entry-point set
although that declared method satisfies none of the entry
conditions (method identifiers are name-based, so overloads collapse). -/
theorem entry_point_cex :
    examplePrivFoo ∈ exampleOverloadCls.methods ∧
    fullName exampleOverloadCls.name examplePrivFoo ∈ getEntryPoints exampleOverloadCls ∧
    ¬ entryCond examplePrivFoo := by decide

/-- C7 (amended): a method identifier is in the entry-point set iff
some declared method with that full name is the main entry, is declared
public or protected, is the static initializer, or is a public
constructor. -/
theorem entry_point_membership (cls : ClassData) (x : String) :
    x ∈ getEntryPoints cls ↔
      ∃ m ∈ cls.methods, entryCond m ∧ fullName cls.name m = x := by
  rw [getEntryPoints]
  have main : ∀ (ms : List Method) (acc : List String),
      x ∈ ms.foldl (fun acc m =>
          if entryCond m then listInsert acc (fullName cls.name m) else acc) acc ↔
        x ∈ acc ∨ ∃ m ∈ ms, entryCond m ∧ fullName cls.name m = x := by
    intro ms
    induction ms with
    | nil => simp
    | cons m ms ih =>
      intro acc
      rw [List.foldl_cons, ih]
      by_cases hc : entryCond m
      · rw [if_pos hc, mem_listInsert]
        simp only [List.mem_cons]
        constructor
        · rintro ((heq | hacc) | ⟨m', hm', h1, h2⟩)
          · exact Or.inr ⟨m, Or.inl rfl, hc, heq.symm⟩
          · exact Or.inl hacc
          · exact Or.inr ⟨m', Or.inr hm', h1, h2⟩
        · rintro (hacc | ⟨m', heq | hm', h1, h2⟩)
          · exact Or.inl (Or.inr hacc)
          · subst heq
            exact Or.inl (Or.inl h2.symm)
          · exact Or.inr ⟨m', hm', h1, h2⟩
      · rw [if_neg hc]
        simp only [List.mem_cons]
        constructor
        · rintro (hacc | ⟨m', hm', h1, h2⟩)
          · exact Or.inl hacc
          · exact Or.inr ⟨m', Or.inr hm', h1, h2⟩
        · rintro (hacc | ⟨m', heq | hm', h1, h2⟩)
          · exact Or.inl hacc
          · subst heq
            exact absurd h1 hc
          · exact Or.inr ⟨m', hm', h1, h2⟩
  rw [main]
  simp

/-! ### C8: method-level reachability and the unreachable complement -/

theorem getReachableFrom_mem_worklist (calls : List (String × List String))
    (R : Finset String) (W : List String) (x : String)
    (hx : x ∈ R ∨ x ∈ W) : x ∈ getReachableFrom calls R W := by
  induction R, W using getReachableFrom.induct calls with
  | case1 R =>
    rw [getReachableFrom]
    exact hx.elim id (fun h => absurd h (List.not_mem_nil x))
  | case2 R m rest hm ih =>
    rw [getReachableFrom]
    simp only [if_pos hm]
    refine ih ?_
    rcases hx with h | h
    · exact Or.inl h
    · rcases List.mem_cons.mp h with heq | h2
      · exact Or.inl (heq ▸ hm)
      · exact Or.inr h2
  | case3 R m rest hm ih =>
    rw [getReachableFrom]
    simp only [if_neg hm]
    refine ih ?_
    rcases hx with h | h
    · exact Or.inl (Finset.mem_insert_of_mem h)
    · rcases List.mem_cons.mp h with heq | h2
      · exact Or.inl (heq ▸ Finset.mem_insert_self m R)
      · exact Or.inr (List.mem_append.mpr (Or.inr h2))

theorem getReachableFrom_sound (calls : List (String × List String))
    (P : String → Prop) (hstep : ∀ a b, P a → callStep calls a b → P b)
    (R : Finset String) (W : List String)
    (hR : ∀ x ∈ R, P x) (hW : ∀ x ∈ W, P x) :
    ∀ x ∈ getReachableFrom calls R W, P x := by
  induction R, W using getReachableFrom.induct calls with
  | case1 R =>
    rw [getReachableFrom]
    exact hR
  | case2 R m rest hm ih =>
    rw [getReachableFrom]
    simp only [if_pos hm]
    exact ih hR (fun x hx => hW x (List.mem_cons_of_mem m hx))
  | case3 R m rest hm ih =>
    rw [getReachableFrom]
    simp only [if_neg hm]
    refine ih ?_ ?_
    · intro x hx
      rcases Finset.mem_insert.mp hx with heq | hx2
      · exact heq ▸ hW m (List.mem_cons_self m rest)
      · exact hR x hx2
    · intro x hx
      rcases List.mem_append.mp hx with hx1 | hx2
      · exact hstep m x (hW m (List.mem_cons_self m rest))
          (List.mem_of_mem_filter hx1)
      · exact hW x (List.mem_cons_of_mem m hx2)

theorem getReachableFrom_closed (calls : List (String × List String))
    (R : Finset String) (W : List String)
    (hinv : ∀ a ∈ R, ∀ b ∈ lookupCallees calls a, b ∈ R ∨ b ∈ W) :
    ∀ a ∈ getReachableFrom calls R W, ∀ b ∈ lookupCallees calls a,
      b ∈ getReachableFrom calls R W := by
  induction R, W using getReachableFrom.induct calls with
  | case1 R =>
    intro a ha b hb
    rw [getReachableFrom] at ha ⊢
    rcases hinv a ha b hb with h | h
    · exact h
    · exact absurd h (List.not_mem_nil b)
  | case2 R m rest hm ih =>
    rw [getReachableFrom]
    simp only [if_pos hm]
    refine ih ?_
    intro a ha b hb
    rcases hinv a ha b hb with h | h
    · exact Or.inl h
    · rcases List.mem_cons.mp h with heq | h2
      · exact Or.inl (heq ▸ hm)
      · exact Or.inr h2
  | case3 R m rest hm ih =>
    rw [getReachableFrom]
    simp only [if_neg hm]
    refine ih ?_
    intro a ha b hb
    rcases Finset.mem_insert.mp ha with heq | ha2
    · subst heq
      by_cases hbR : b ∈ insert a R
      · exact Or.inl hbR
      · refine Or.inr (List.mem_append.mpr (Or.inl ?_))
        rw [List.mem_filter]
        exact ⟨hb, by simpa using hbR⟩
    · rcases hinv a ha2 b hb with h | h
      · exact Or.inl (Finset.mem_insert_of_mem h)
      · rcases List.mem_cons.mp h with heq2 | h2
        · exact Or.inl (heq2 ▸ Finset.mem_insert_self m R)
        · exact Or.inr (List.mem_append.mpr (Or.inr h2))

theorem getReachableFrom_spec (calls : List (String × List String))
    (entries : List String) (x : String) :
    x ∈ getReachableFrom calls ∅ entries ↔
      ∃ e ∈ entries, Relation.ReflTransGen (callStep calls) e x := by
  constructor
  · intro hx
    refine getReachableFrom_sound calls
      (fun y => ∃ e ∈ entries, Relation.ReflTransGen (callStep calls) e y)
      ?_ ∅ entries ?_ ?_ x hx
    · rintro a b ⟨e, he, hr⟩ hcall
      exact ⟨e, he, hr.tail hcall⟩
    · intro y hy
      exact absurd hy (Finset.not_mem_empty y)
    · intro y hy
      exact ⟨y, hy, Relation.ReflTransGen.refl⟩
  · rintro ⟨e, he, hr⟩
    induction hr with
    | refl => exact getReachableFrom_mem_worklist calls ∅ entries e (Or.inr he)
    | tail hab hbc ih =>
      exact getReachableFrom_closed calls ∅ entries
        (fun a ha => absurd ha (Finset.not_mem_empty a)) _ ih _ hbc

theorem extractCalls_all_methods (g : CallGraph) (c : String) (code : MethodCode) :
    (extractCalls g c code).all_methods = g.all_methods := by
  rw [extractCalls]
  suffices h : ∀ (l : List Instr) (g : CallGraph),
      (l.foldl (fun g instr =>
        if instr.opr = "invoke" then
          if (instr.method.bind MethodRef.refName).getD "" ≠ "" ∧
              (instr.method.bind MethodRef.name).getD "" ≠ "" then
            g.add_call c ((instr.method.bind MethodRef.refName).getD "" ++ "." ++
              (instr.method.bind MethodRef.name).getD "")
          else g
        else g) g).all_methods = g.all_methods by
    exact h _ g
  intro l
  induction l with
  | nil => intro g; rfl
  | cons i l ih =>
    intro g
    rw [List.foldl_cons, ih]
    split
    · split
      · rw [CallGraph.add_call]
        split <;> rfl
      · rfl
    · rfl

theorem analyzeStep_all_methods_mono (cn : String)
    (acc : CallGraph × List (String × SimpleCFG)) (m : Method) (x : String)
    (hx : x ∈ acc.1.all_methods) : x ∈ (analyzeStep cn acc m).1.all_methods := by
  rw [analyzeStep]
  cases m.code with
  | none =>
    exact (mem_listInsert _ _ _).mpr (Or.inr hx)
  | some code =>
    simp only
    rw [extractCalls_all_methods]
    exact (mem_listInsert _ _ _).mpr (Or.inr hx)

theorem analyzeStep_all_methods_self (cn : String)
    (acc : CallGraph × List (String × SimpleCFG)) (m : Method) :
    fullName cn m ∈ (analyzeStep cn acc m).1.all_methods := by
  rw [analyzeStep]
  cases m.code with
  | none =>
    exact (mem_listInsert _ _ _).mpr (Or.inl rfl)
  | some code =>
    simp only
    rw [extractCalls_all_methods]
    exact (mem_listInsert _ _ _).mpr (Or.inl rfl)

theorem foldl_analyzeStep_mono (cn : String) (ms : List Method)
    (acc : CallGraph × List (String × SimpleCFG)) (x : String)
    (hx : x ∈ acc.1.all_methods) :
    x ∈ (ms.foldl (analyzeStep cn) acc).1.all_methods := by
  induction ms generalizing acc with
  | nil => exact hx
  | cons m0 ms ih => exact ih _ (analyzeStep_all_methods_mono cn acc m0 x hx)

theorem foldl_all_methods (cn : String) (ms : List Method) (m : Method)
    (hm : m ∈ ms) (acc : CallGraph × List (String × SimpleCFG)) :
    fullName cn m ∈ (ms.foldl (analyzeStep cn) acc).1.all_methods := by
  induction ms generalizing acc with
  | nil => cases hm
  | cons m0 ms ih =>
    rw [List.foldl_cons]
    rcases List.mem_cons.mp hm with heq | hm2
    · subst heq
      exact foldl_analyzeStep_mono cn ms _ _ (analyzeStep_all_methods_self cn acc m)
    · exact ih hm2 _

/-- C8: the unreachable-method set of an analysis is exactly the
registered methods that the call graph cannot reach from the
entry-point set, and every declared method is registered whether or
not it is ever called. -/
theorem unreachable_methods_spec (cls : ClassData) :
    (∀ x, x ∈ (analyzeClass cls).unreachable_methods ↔
      x ∈ (analyzeClass cls).call_graph.all_methods ∧
        ¬ ∃ e ∈ (analyzeClass cls).entry_points,
          Relation.ReflTransGen (callStep (analyzeClass cls).call_graph.calls) e x) ∧
    (∀ m ∈ cls.methods,
      fullName cls.name m ∈ (analyzeClass cls).call_graph.all_methods) := by
  constructor
  · intro x
    simp only [analyzeClass]
    rw [List.mem_filter]
    constructor
    · rintro ⟨h1, h2⟩
      simp only [decide_eq_true_eq] at h2
      exact ⟨h1, fun hex => h2 ((getReachableFrom_spec _ _ x).mpr hex)⟩
    · rintro ⟨h1, h2⟩
      refine ⟨h1, ?_⟩
      simp only [decide_eq_true_eq]
      exact fun hx => h2 ((getReachableFrom_spec _ _ x).mp hx)
  · intro m hm
    simp only [analyzeClass]
    exact foldl_all_methods cls.name cls.methods m hm _

/-- Witness for C8: the declared method of the concrete class is
registered in `all_methods`. -/
theorem unreachable_methods_spec_witness :
    fullName exampleCls.name exampleMain ∈
      (analyzeClass exampleCls).call_graph.all_methods :=
  (unreachable_methods_spec exampleCls).2 exampleMain (by decide)

/-! ### C9: silent omission of unresolvable jump targets -/

theorem rawPcList_set (bc : List Instr) (i : Nat) (instr instr' : Instr)
    (hi : bc[i]? = some instr) (hoff : instr'.offset = instr.offset) :
    rawPcList (bc.set i instr') = rawPcList bc := by
  rw [rawPcList, rawPcList, List.length_set]
  apply List.filterMap_congr
  intro j hj
  by_cases hji : j = i
  · subst hji
    have hset : (bc.set j instr')[j]? = some instr' := by
      simp [List.getElem?_set, getElem?_lt bc hi]
    rw [hset, hi]
    simp only [instrOffset, hoff]
  · rw [List.getElem?_set_ne (fun hc => hji hc.symm)]

theorem indexToOffset_set (bc : List Instr) (i : Nat) (instr instr' : Instr)
    (hi : bc[i]? = some instr) (hoff : instr'.offset = instr.offset) :
    indexToOffset (bc.set i instr') = indexToOffset bc := by
  rw [indexToOffset, indexToOffset, List.length_set]
  apply List.filterMap_congr
  intro j hj
  by_cases hji : j = i
  · subst hji
    have hset : (bc.set j instr')[j]? = some instr' := by
      simp [List.getElem?_set, getElem?_lt bc hi]
    rw [hset, hi]
    simp only [instrOffset, hoff]
  · rw [List.getElem?_set_ne (fun hc => hji hc.symm)]

theorem cfgKeys_set (bc : List Instr) (i : Nat) (instr instr' : Instr)
    (hi : bc[i]? = some instr) (hoff : instr'.offset = instr.offset) :
    cfgKeys (bc.set i instr') = cfgKeys bc := by
  rw [cfgKeys, cfgKeys, rawPcList_set bc i instr instr' hi hoff]

theorem nextOffset_set (bc : List Instr) (i : Nat) (instr instr' : Instr)
    (hi : bc[i]? = some instr) (hoff : instr'.offset = instr.offset) (j : Nat) :
    nextOffset (bc.set i instr') j = nextOffset bc j := by
  rw [nextOffset, nextOffset]
  by_cases hj : j + 1 = i
  · subst hj
    have hset : (bc.set (j + 1) instr')[j + 1]? = some instr' := by
      simp [List.getElem?_set, getElem?_lt bc hi]
    rw [hset, hi]
    exact hoff
  · rw [List.getElem?_set_ne (fun hc => hj hc.symm)]

theorem edgeCalls_ext (bc bc' : List Instr) (tbl : List (Int × Int)) (j : Nat)
    (x : Instr) (hkeys : cfgKeys bc' = cfgKeys bc)
    (hnext : nextOffset bc' j = nextOffset bc j) :
    edgeCalls bc' tbl j x = edgeCalls bc tbl j x := by
  rw [edgeCalls, edgeCalls, hkeys, hnext]

theorem buildCfgSimple_congr (name : String) (bc bc' : List Instr)
    (hkeys : cfgKeys bc' = cfgKeys bc)
    (hedges : allEdgeCalls bc' = allEdgeCalls bc) :
    buildCfgSimple name bc' = buildCfgSimple name bc := by
  rw [buildCfgSimple, buildCfgSimple, hedges, hkeys]

theorem allEdgeCalls_set (bc : List Instr) (i : Nat) (instr instr' : Instr)
    (hi : bc[i]? = some instr) (hoff : instr'.offset = instr.offset)
    (hsame : edgeCalls (bc.set i instr') (indexToOffset bc) i instr' =
      edgeCalls bc (indexToOffset bc) i instr) :
    allEdgeCalls (bc.set i instr') = allEdgeCalls bc := by
  rw [allEdgeCalls, allEdgeCalls, List.length_set,
    indexToOffset_set bc i instr instr' hi hoff]
  congr 1
  apply List.map_congr_left
  intro j hj
  by_cases hji : j = i
  · subst hji
    have hset : (bc.set j instr')[j]? = some instr' := by
      simp [List.getElem?_set, getElem?_lt bc hi]
    rw [hset, hi]
    exact hsame
  · rw [List.getElem?_set_ne (fun hc => hji hc.symm)]
    cases hx : bc[j]? with
    | none => rfl
    | some x =>
      exact edgeCalls_ext bc (bc.set i instr') (indexToOffset bc) j x
        (cfgKeys_set bc i instr instr' hi hoff)
        (nextOffset_set bc i instr instr' hi hoff j)

/-- C9: an if/ifz/goto target index, a switch default index, or a
switch case index that is absent from the index-to-offset table
contributes no edge and leaves the rest of the CFG untouched:
`build_cfg` returns exactly the CFG of the method with that operand
removed.  Construction is total, so no error is raised. -/
theorem unresolved_target_omitted (name : String) (bc : List Instr) (i : Nat)
    (instr : Instr) (t : Int) (hi : bc[i]? = some instr)
    (hres : resolveTarget (indexToOffset bc) t = none) :
    ((instr.opr = "if" ∨ instr.opr = "ifz" ∨ instr.opr = "goto") →
      instr.target = some t →
      buildCfgSimple name (bc.set i { instr with target := none }) =
        buildCfgSimple name bc) ∧
    ((instr.opr = "tableswitch" ∨ instr.opr = "lookupswitch") →
      instr.default = some t →
      buildCfgSimple name (bc.set i { instr with default := none }) =
        buildCfgSimple name bc) ∧
    ((instr.opr = "tableswitch" ∨ instr.opr = "lookupswitch") →
      ∀ preCases c postCases, instr.targets = preCases ++ c :: postCases →
        caseTargetIdx c = some t →
        buildCfgSimple name (bc.set i { instr with targets := preCases ++ postCases }) =
          buildCfgSimple name bc) := by
  refine ⟨?_, ?_, ?_⟩
  · intro hopr ht
    refine buildCfgSimple_congr name bc _
      (cfgKeys_set bc i instr { instr with target := none } hi rfl) ?_
    refine allEdgeCalls_set bc i instr { instr with target := none } hi rfl ?_
    rw [edgeCalls_ext bc (bc.set i { instr with target := none })
      (indexToOffset bc) i { instr with target := none }
      (cfgKeys_set bc i instr { instr with target := none } hi rfl)
      (nextOffset_set bc i instr { instr with target := none } hi rfl i)]
    rcases hopr with h | h | h <;>
      simp [edgeCalls, instrOffset, h, ht, hres]
  · intro hopr hd
    refine buildCfgSimple_congr name bc _
      (cfgKeys_set bc i instr { instr with default := none } hi rfl) ?_
    refine allEdgeCalls_set bc i instr { instr with default := none } hi rfl ?_
    rw [edgeCalls_ext bc (bc.set i { instr with default := none })
      (indexToOffset bc) i { instr with default := none }
      (cfgKeys_set bc i instr { instr with default := none } hi rfl)
      (nextOffset_set bc i instr { instr with default := none } hi rfl i)]
    rcases hopr with h | h <;>
      simp [edgeCalls, instrOffset, h, hd, hres]
  · intro hopr preCases c postCases htargets hcase
    refine buildCfgSimple_congr name bc _
      (cfgKeys_set bc i instr { instr with targets := preCases ++ postCases } hi rfl) ?_
    refine allEdgeCalls_set bc i instr
      { instr with targets := preCases ++ postCases } hi rfl ?_
    rw [edgeCalls_ext bc (bc.set i { instr with targets := preCases ++ postCases })
      (indexToOffset bc) i { instr with targets := preCases ++ postCases }
      (cfgKeys_set bc i instr { instr with targets := preCases ++ postCases } hi rfl)
      (nextOffset_set bc i instr { instr with targets := preCases ++ postCases } hi rfl i)]
    have hcnone : switchCaseEdge (indexToOffset bc) (instr.offset.getD (-1)) c
        = none := by
      cases c with
      | int ci =>
        simp only [caseTargetIdx, Option.some_inj] at hcase
        simp [switchCaseEdge, hcase ▸ hres]
      | dict ti =>
        cases ti with
        | none => rfl
        | some tt =>
          simp only [caseTargetIdx, Option.some_inj] at hcase
          simp [switchCaseEdge, hcase ▸ hres]
    rcases hopr with h | h <;>
      simp [edgeCalls, instrOffset, h, htargets, List.filterMap_append,
        List.filterMap_cons, hcnone]

/-- Witness for C9: removing the unresolvable goto target of
`exampleBc9` leaves the built CFG unchanged. -/
theorem unresolved_target_omitted_witness :
    buildCfgSimple "m" (exampleBc9.set 0 { exampleGotoInstr with target := none }) =
      buildCfgSimple "m" exampleBc9 :=
  (unresolved_target_omitted "m" exampleBc9 0 exampleGotoInstr 5 rfl (by decide)).1
    (Or.inr (Or.inr rfl)) rfl

/-! ### C10: the dead-instructions map of `analyze_class` -/

theorem dictInsert_fst_nodup {α : Type} (l : List (String × α)) (k : String)
    (v : α) (h : (l.map Prod.fst).Nodup) :
    ((dictInsert l k v).map Prod.fst).Nodup := by
  rw [dictInsert]
  split
  · have heq : (l.map (fun p => if p.1 = k then (k, v) else p)).map Prod.fst =
        l.map Prod.fst := by
      rw [List.map_map]
      apply List.map_congr_left
      intro p hp
      by_cases hpk : p.1 = k
      · simp [Function.comp, hpk]
      · simp [Function.comp, hpk]
    rw [heq]
    exact h
  · rename_i hany
    rw [List.map_append]
    rw [List.nodup_append]
    refine ⟨h, by simp, ?_⟩
    intro x hx hxk
    simp only [List.map_cons, List.map_nil, List.mem_singleton] at hxk
    subst hxk
    rw [List.mem_map] at hx
    obtain ⟨p, hp, hpk⟩ := hx
    apply hany
    rw [List.any_eq_true]
    exact ⟨p, hp, by simp [hpk]⟩

theorem analyzeClass_cfgs_fst_nodup_aux (cn : String) (ms : List Method)
    (acc : CallGraph × List (String × SimpleCFG))
    (h : (acc.2.map Prod.fst).Nodup) :
    (((ms.foldl (analyzeStep cn) acc).2).map Prod.fst).Nodup := by
  induction ms generalizing acc with
  | nil => exact h
  | cons m ms ih =>
    rw [List.foldl_cons]
    refine ih _ ?_
    rw [analyzeStep]
    cases m.code with
    | none => exact h
    | some code => exact dictInsert_fst_nodup _ _ _ h

/-- C10: an entry `(name, S)` is in the dead-instructions map exactly
when `name` has a CFG, is method-level reachable from the entry points,
and `S` is that CFG's non-empty unreachable-node set; together with the
key-uniqueness of the CFG map this means a reachable method with no
unreachable instruction is absent from the map rather than mapped to
the empty set. -/
theorem dead_instructions_spec (cls : ClassData) (name : String) (S : Finset Int) :
    ((name, S) ∈ (analyzeClass cls).dead_instructions ↔
      ∃ cfg, (name, cfg) ∈ (analyzeClass cls).cfgs ∧
        (∃ e ∈ (analyzeClass cls).entry_points,
          Relation.ReflTransGen (callStep (analyzeClass cls).call_graph.calls) e name) ∧
        S = cfg.get_unreachable_nodes ∧ S ≠ ∅) ∧
    ((analyzeClass cls).cfgs.map Prod.fst).Nodup := by
  constructor
  · simp only [analyzeClass]
    rw [List.mem_filterMap]
    constructor
    · rintro ⟨p, hp, hfp⟩
      split at hfp
      · split at hfp
        · rename_i h1 h2
          obtain ⟨hp1, hp2⟩ := Prod.mk.injEq .. ▸ Option.some_inj.mp hfp
          refine ⟨p.2, ?_, ?_, ?_, ?_⟩
          · rw [← hp1]
            exact hp
          · rw [← hp1]
            exact (getReachableFrom_spec _ _ p.1).mp h1
          · exact hp2.symm
          · rw [← hp2]
            exact h2
        · exact Option.noConfusion hfp
      · exact Option.noConfusion hfp
    · rintro ⟨cfg, hcfg, hreach, hS, hne⟩
      refine ⟨(name, cfg), hcfg, ?_⟩
      rw [if_pos ((getReachableFrom_spec _ _ name).mpr hreach)]
      rw [hS] at hne ⊢
      rw [if_pos hne]
  · simp only [analyzeClass]
    exact analyzeClass_cfgs_fst_nodup_aux cls.name cls.methods _ List.nodup_nil

end BytecodeAnalysis
